import Mathlib

/-!
# Verification of the gustaf vertex-pool core (`gustaf/vertices.py`)

Shallow embedding of the vertex pool (`Vertices` and its connectivity-carrying
subclasses) together with proofs about its operations: the vertices setter,
`update_vertices`, `remove_vertices`, `merge_vertices` / `unique_vertices`,
and `concat`.

Modelling conventions:
* numpy float entries are modelled as exact rationals (the claims under study
  are about index bookkeeping and comparisons, not rounding);
* numpy arrays of vertex positions are lists of rows (`List Vec`); genuine
  numpy arrays are rectangular, and no operation modelled here creates ragged
  data from rectangular input;
* Python exceptions are modelled with `Except GErr`; a Python method that
  mutates `self` and returns it becomes a function from the old pool state to
  the new one;
* helper code of the repository that is not part of `vertices.py`
  (`utils.arr`, `helpers.data`, the subclasses' connectivity accessors) is
  modelled from the spec, and each such definition says so in its doc comment.
-/

namespace Gustaf

/-- Spatial coordinates of one vertex row. -/
abbrev Vec := List ℚ

/-- Error outcomes of the modelled operations.  `shapeError` is the failure of
`utils.arr.is_shape` (the spec's `ShapeError`); `typeError` is the `TypeError`
raised by `concat` (the spec's `TypeKindMismatchError`); `indexError` and
`valueError` are the corresponding numpy failures. -/
inductive GErr
  | shapeError
  | typeError
  | indexError
  | valueError
  deriving DecidableEq

/-- The concrete classes of the pool hierarchy.  In the repository the chain is
linear: `Vertices` ← `Edges` ← `Faces` ← `Volumes`, and the `kind` class
attribute is `"vertex"` exactly on `Vertices`. -/
inductive Kind
  | vertices
  | edges
  | faces
  | volumes
  deriving DecidableEq

/-- Depth of a class in the linear hierarchy. -/
def clsLevel : Kind → Nat
  | .vertices => 0
  | .edges => 1
  | .faces => 2
  | .volumes => 3

/-- `isinstance(inst, cls)`: an instance of a subclass counts as an instance
of every superclass. -/
def subclassOf (sub cls : Kind) : Bool := clsLevel cls ≤ clsLevel sub

/-- The source's test `self.kind != "vertex"` distinguishes connectivity
carriers; `kind` is `"vertex"` exactly for the `Vertices` class. -/
def kindIsVertex (c : Kind) : Bool := c = .vertices

/-- State of one vertex pool (`Vertices` instance or subclass instance).
`verts` is the tracked buffer `_vertices`, `constVerts` the read-only view
`_const_vertices` (the two coincide on every pool built through the vertices
setter), `elems` the connectivity of non-vertex kinds, `vertexdata` the
attached per-vertex data table, and `gen` the identity generation of the
tracked buffer: replacing the buffer creates a fresh tracked array, which is
what invalidates the `_computed` cache (identity-based invalidation). -/
structure Pool where
  cls : Kind
  verts : List Vec
  constVerts : List Vec
  elems : List (List Int)
  vertexdata : List (String × List ℚ)
  gen : Nat
  deriving DecidableEq

/-- A mask argument as accepted by `update_vertices`: a boolean row mask or an
integer index array (`np.asarray(mask)` of dtype kind `b` or `i`). -/
inductive Mask
  | bools (bs : List Bool)
  | ints (l : List Int)
  deriving DecidableEq

/-- numpy indexing `l[e]` with a (possibly negative, wrapping) integer index;
out of range raises `IndexError`. -/
def npIndex (l : List α) (e : Int) : Except GErr α :=
  let i : Int := if e < 0 then e + l.length else e
  if h : 0 ≤ i ∧ i.toNat < l.length then .ok (l.get ⟨i.toNat, h.2⟩)
  else .error .indexError

/-- numpy element write `l[e] = v` with a wrapping integer index. -/
def npSetAt (l : List Int) (e : Int) (v : Int) : Except GErr (List Int) :=
  let i : Int := if e < 0 then e + l.length else e
  if 0 ≤ i ∧ i.toNat < l.length then .ok (l.set i.toNat v)
  else .error .indexError

/-- Effectful map over a list, propagating the first error (Python loops
raise at the first failing element). -/
def mapE (f : α → Except GErr β) : List α → Except GErr (List β)
  | [] => .ok []
  | x :: xs => do
    let y ← f x
    let ys ← mapE f xs
    .ok (y :: ys)

/-- The rows kept by a boolean mask. -/
def boolSelect (rows : List α) (bs : List Bool) : List α :=
  (rows.zip bs).filterMap (fun rb => if rb.2 then some rb.1 else none)

/-- numpy boolean-mask row selection `rows[bs]`; a mask whose length does not
match the array raises `IndexError`. -/
def selectBool (rows : List α) (bs : List Bool) : Except GErr (List α) :=
  if rows.length = bs.length then .ok (boolSelect rows bs)
  else .error .indexError

/-- numpy integer-array row selection `rows[l]`. -/
def selectInts (rows : List α) (l : List Int) : Except GErr (List α) :=
  mapE (npIndex rows) l

/-- Row selection by either mask kind. -/
def selectMask (rows : List α) : Mask → Except GErr (List α)
  | .bools bs => selectBool rows bs
  | .ints l => selectInts rows l

/-- The `Vertices.vertices` setter, specialised to the rank-2 arrays produced
inside `update_vertices` (the shape check passes).  It replaces the tracked
buffer (fresh identity, hence `gen` is bumped and the computed cache is
invalidated), refreshes the read-only view, and revalidates `vertexdata`.
`VertexData._validate_len(raise_=False)` is modelled from the spec: every
entry whose first dimension differs from the new vertex count is removed
(the source comments this very effect: "by len mismatch, will clear data"). -/
def setVerts (P : Pool) (rows : List Vec) : Pool :=
  { P with
    verts := rows
    constVerts := rows
    vertexdata := P.vertexdata.filter (fun kv => decide (kv.2.length = rows.length))
    gen := P.gen + 1 }

/-- Modelled from the spec: the `elements` setter of the connectivity
collaborator owned by non-vertex kinds simply replaces the stored integer
index array. -/
def setElems (P : Pool) (es : List (List Int)) : Pool :=
  { P with elems := es }

/-- `inverse = np.full(n, -11); inverse[mask] = np.arange(mask.sum())` for a
boolean mask: kept rows receive consecutive new indices, removed rows keep
the sentinel `-11`. -/
def invBoolAux : List Bool → Nat → List Int
  | [], _ => []
  | b :: bs, k =>
    if b then Int.ofNat k :: invBoolAux bs (k + 1) else -11 :: invBoolAux bs k

/-- Internal inverse for a boolean mask. -/
def invBool (bs : List Bool) : List Int := invBoolAux bs 0

/-- `inverse[mask] = np.arange(len(mask))` for an integer mask: sequential
fancy writes, the later write winning on duplicate indices. -/
def invIntsAux (acc : List Int) : List Int → Nat → Except GErr (List Int)
  | [], _ => .ok acc
  | e :: es, k => do
    let acc' ← npSetAt acc e (Int.ofNat k)
    invIntsAux acc' es (k + 1)

/-- Re-index a connectivity array elementwise through `inverse`:
`inverse[elements.reshape(-1)].reshape(-1, k)`. -/
def remapElems (inv : List Int) (es : List (List Int)) :
    Except GErr (List (List Int)) :=
  mapE (fun row => mapE (npIndex inv) row) es

/-- The fast-path test of `update_vertices`:
`(mask.dtype.name == "bool" and mask.all()) or len(mask) == 0`. -/
def maskFast : Mask → Bool
  | .bools bs => bs.all (fun b => b)
  | .ints l => l.isEmpty

/-- `Vertices.update_vertices(mask, inverse=None)`:  keeps only the masked
vertices, re-indexes connectivity, and re-applies the mask to the attached
data, following the source line by line:
fast path; optional internal inverse (with `check_neg` set only then);
elementwise remap of `elements` through the inverse, dropping rows containing
a sentinel only when `check_neg`; `vertices[mask]`; assignment through the
vertices setter (which revalidates `vertexdata`); assignment of the new
elements; finally `update_vertexdata`, which masks whatever entries are in
the table at that point and replaces the table. -/
def updateVertices (P : Pool) (mask : Mask) (inverse : Option (List Int)) :
    Except GErr Pool :=
  let vertices := P.constVerts
  if maskFast mask then .ok P
  else do
    let invPair : Except GErr (Option (List Int) × Bool) :=
      match inverse with
      | some inv => .ok (some inv, false)
      | none =>
        if kindIsVertex P.cls then .ok (none, false)
        else
          match mask with
          | .bools bs =>
            if bs.length = vertices.length then .ok (some (invBool bs), true)
            else .error .indexError
          | .ints l => do
            let inv ← invIntsAux (List.replicate vertices.length (-11)) l 0
            .ok (some inv, true)
    let pr ← invPair
    let newElems : Except GErr (Option (List (List Int))) :=
      match pr.1 with
      | some inv =>
        if kindIsVertex P.cls then .ok none
        else do
          let re ← remapElems inv P.elems
          if pr.2 then
            .ok (some (re.filter (fun row => row.all (fun e => decide (e > -1)))))
          else .ok (some re)
      | none => .ok none
    let es ← newElems
    let newVerts ← selectMask vertices mask
    let P1 := setVerts P newVerts
    let P2 := match es with
      | some es' => setElems P1 es'
      | none => P1
    let newData ← mapE (fun kv => do
      let v ← selectMask kv.2 mask
      .ok (kv.1, v)) P2.vertexdata
    .ok { P2 with vertexdata := newData }

/-- `Vertices.remove_vertices(ids)`: start from an all-`True` mask of the
current length and set the listed ids to `False` (`mask[ids] = False` writes
sequentially through numpy fancy indexing). -/
def buildRemoveMask (n : Nat) (ids : List Nat) : List Bool :=
  ids.foldl (fun bs id => bs.set id false) (List.replicate n true)

/-- `Vertices.remove_vertices(ids)` delegates to `update_vertices`. -/
def removeVertices (P : Pool) (ids : List Nat) : Except GErr Pool :=
  updateVertices P (.bools (buildRemoveMask P.verts.length ids)) none

/-- A mask is valid for a pool when a boolean mask matches the vertex count
and an integer mask stays in range. -/
def validMask (P : Pool) : Mask → Prop
  | .bools bs => bs.length = P.constVerts.length
  | .ints l => ∀ e ∈ l, 0 ≤ e ∧ e < (P.constVerts.length : Int)

/-! ## Helper lemmas about the numpy primitives -/

instance {ε α : Type _} [DecidableEq ε] [DecidableEq α] :
    DecidableEq (Except ε α) := fun x y =>
  match x, y with
  | .ok a, .ok b =>
    if h : a = b then .isTrue (by rw [h]) else .isFalse (by simp [h])
  | .error a, .error b =>
    if h : a = b then .isTrue (by rw [h]) else .isFalse (by simp [h])
  | .ok _, .error _ => .isFalse (by simp)
  | .error _, .ok _ => .isFalse (by simp)

theorem mapE_ok {f : α → Except GErr β} {g : α → β} :
    ∀ l : List α, (∀ x ∈ l, f x = .ok (g x)) → mapE f l = .ok (l.map g)
  | [], _ => rfl
  | x :: xs, h => by
    have hx := h x (List.mem_cons_self x xs)
    have hxs := mapE_ok xs (fun y hy => h y (List.mem_cons_of_mem x hy))
    simp [mapE, hx, hxs, bind, Except.bind]

theorem npIndex_ok {l : List α} {e : Int} (d : α) (h0 : 0 ≤ e)
    (h1 : e.toNat < l.length) : npIndex l e = .ok (l.getD e.toNat d) := by
  have hneg : ¬ e < 0 := not_lt.mpr h0
  simp [npIndex, hneg, h0, h1, List.getD_eq_get _ _ h1]

theorem selectBool_ok {rows : List α} {bs : List Bool}
    (h : rows.length = bs.length) :
    selectBool rows bs = .ok (boolSelect rows bs) := by
  simp [selectBool, h]

theorem boolSelect_length :
    ∀ (rows : List α) (bs : List Bool), rows.length = bs.length →
      (boolSelect rows bs).length = bs.count true
  | [], [], _ => rfl
  | r :: rows, b :: bs, h => by
    have ih := boolSelect_length rows bs (by simpa using h)
    cases b <;> simp [boolSelect, List.count_cons, ih] <;>
      simpa [boolSelect] using ih
  | [], _ :: _, h => by simp at h
  | _ :: _, [], h => by simp at h

theorem count_true_lt_of_mem_false {bs : List Bool} (h : false ∈ bs) :
    bs.count true < bs.length := by
  induction bs with
  | nil => simp at h
  | cons b tl ih =>
    cases b with
    | false =>
      have : tl.count true ≤ tl.length := List.count_le_length true tl
      simp [List.count_cons]
      omega
    | true =>
      have htl : false ∈ tl := by simpa using h
      have := ih htl
      simp [List.count_cons]
      omega

/-! ## C3: the no-op fast path of `update_vertices` -/

/-- C3: for every pool and every valid mask that is all-true or empty,
`update_vertices(mask)` takes the no-op fast path and returns the pool
unchanged — no field (positions, read-only view, attached data, connectivity,
cache generation) is mutated. -/
theorem updateVertices_noop (P : Pool) (inv : Option (List Int)) (m : Mask)
    (hv : validMask P m)
    (h : (∃ bs, m = .bools bs ∧ bs.all (fun b => b) = true) ∨ m = .ints []) :
    updateVertices P m inv = .ok P := by
  have hf : maskFast m = true := by
    rcases h with ⟨bs, rfl, hb⟩ | rfl
    · simpa [maskFast] using hb
    · rfl
  unfold updateVertices
  simp [hf]

/-- A small concrete pool used by the no-op witness. -/
def exPoolC3 : Pool :=
  { cls := .vertices
    verts := [[0, 0], [1, 0], [2, 5]]
    constVerts := [[0, 0], [1, 0], [2, 5]]
    elems := []
    vertexdata := [("temperature", [1, 2, 3])]
    gen := 0 }

theorem updateVertices_noop_witness :
    validMask exPoolC3 (.bools [true, true, true]) ∧
      updateVertices exPoolC3 (.bools [true, true, true]) none = .ok exPoolC3 :=
  ⟨rfl, updateVertices_noop exPoolC3 none (.bools [true, true, true]) rfl
    (Or.inl ⟨[true, true, true], rfl, by decide⟩)⟩

/-! ## C5: `remove_vertices` delegates to `update_vertices` -/

theorem buildRemoveMask_foldl_length (ids : List Nat) :
    ∀ init : List Bool,
      (ids.foldl (fun bs id => bs.set id false) init).length = init.length := by
  induction ids with
  | nil => intro init; rfl
  | cons id ids ih =>
    intro init
    simpa [List.foldl_cons] using ih (init.set id false)

theorem buildRemoveMask_foldl_get? (ids : List Nat) :
    ∀ (init : List Bool) (i : Nat), i < init.length →
      (ids.foldl (fun bs id => bs.set id false) init).get? i =
        if i ∈ ids then some false else init.get? i := by
  induction ids with
  | nil => intro init i _; simp
  | cons id ids ih =>
    intro init i hi
    rw [List.foldl_cons]
    rw [ih (init.set id false) i (by simpa using hi)]
    rw [List.get?_set_of_lt _ _ hi]
    by_cases hmem : i ∈ ids
    · simp [hmem]
    · by_cases hij : id = i
      · subst hij
        simp [hmem]
      · have hij' : ¬ i = id := fun h => hij h.symm
        simp [hmem, hij, hij']

/-- C5: `remove_vertices(ids)` with all ids in range builds the boolean mask
of the current length that is `False` exactly at the listed ids and `True`
elsewhere, and returns exactly `update_vertices` of that mask. -/
theorem removeVertices_spec (P : Pool) (ids : List Nat)
    (h : ∀ id ∈ ids, id < P.verts.length) :
    removeVertices P ids =
      updateVertices P (.bools (buildRemoveMask P.verts.length ids)) none ∧
    (buildRemoveMask P.verts.length ids).length = P.verts.length ∧
    ∀ i < P.verts.length,
      (buildRemoveMask P.verts.length ids).get? i =
        some (!decide (i ∈ ids)) := by
  refine ⟨rfl, ?_, ?_⟩
  · simpa [buildRemoveMask] using
      buildRemoveMask_foldl_length ids (List.replicate P.verts.length true)
  · intro i hi
    rw [buildRemoveMask,
      buildRemoveMask_foldl_get? ids (List.replicate P.verts.length true) i
        (by simpa using hi)]
    by_cases hmem : i ∈ ids
    · simp [hmem]
    · simp [hmem, List.get?_eq_getElem?, List.getElem?_replicate, hi]

/-- A small concrete pool used by the `remove_vertices` witness; its three
vertices and the id list `[1]` realise the spec's example scenario. -/
def exPoolC5 : Pool :=
  { cls := .vertices
    verts := [[0, 0], [1, 0], [2, 5]]
    constVerts := [[0, 0], [1, 0], [2, 5]]
    elems := []
    vertexdata := []
    gen := 0 }

theorem removeVertices_spec_witness :
    (∀ id ∈ [1], id < exPoolC5.verts.length) ∧
    buildRemoveMask exPoolC5.verts.length [1] = [true, false, true] ∧
    (removeVertices exPoolC5 [1] =
        updateVertices exPoolC5 (.bools [true, false, true]) none ∧
      (buildRemoveMask exPoolC5.verts.length [1]).length =
        exPoolC5.verts.length ∧
      ∀ i < exPoolC5.verts.length,
        (buildRemoveMask exPoolC5.verts.length [1]).get? i =
          some (!decide (i ∈ [1]))) := by
  refine ⟨by decide, by decide, ?_⟩
  have := removeVertices_spec exPoolC5 [1] (by decide)
  simpa [show buildRemoveMask exPoolC5.verts.length [1] = [true, false, true]
    from by decide] using this

/-! ## C4: attached data is dropped, not masked, by a genuine update -/

/-- The failing input of C4: three vertices with one attached-data entry of
matching length. -/
def exPoolC4 : Pool :=
  { cls := .vertices
    verts := [[0, 0], [1, 0], [2, 5]]
    constVerts := [[0, 0], [1, 0], [2, 5]]
    elems := []
    vertexdata := [("a", [10, 20, 30])]
    gen := 0 }

/-- C4 (evaluation of the code at the failing input): `update_vertices`
assigns the masked positions through the vertices setter first, whose
revalidation drops the attached-data entry (its row count 3 no longer matches
the new vertex count 2), and only then applies the mask to the — by now
empty — table.  The result has NO attached data at all, where the claim (and
the spec's example scenario) require the entry `"a"` to survive as
`[10, 30]`. -/
theorem updateVertices_drops_vertexdata :
    updateVertices exPoolC4 (.bools [true, false, true]) none =
      .ok { cls := .vertices
            verts := [[0, 0], [2, 5]]
            constVerts := [[0, 0], [2, 5]]
            elems := []
            vertexdata := []
            gen := 1 } := by
  decide

/-! ## C8: connectivity re-indexing and sentinel-row dropping -/

theorem invBoolAux_length : ∀ (bs : List Bool) (k : Nat),
    (invBoolAux bs k).length = bs.length
  | [], _ => rfl
  | b :: bs, k => by
    cases b <;> simp [invBoolAux, invBoolAux_length bs]

theorem invBool_length (bs : List Bool) : (invBool bs).length = bs.length :=
  invBoolAux_length bs 0

theorem invBoolAux_get? : ∀ (bs : List Bool) (k i : Nat), i < bs.length →
    (invBoolAux bs k).get? i =
      some (if bs.getD i false then (k : Int) + ((bs.take i).count true : Int)
            else -11)
  | [], _, i, hi => by simp at hi
  | b :: bs, k, 0, _ => by cases b <;> simp [invBoolAux]
  | b :: bs, k, i + 1, hi => by
    cases b with
    | false =>
      have ih := invBoolAux_get? bs k i (by simpa using hi)
      show (invBoolAux bs k).get? i = _
      rw [ih]
      simp [List.count_cons]
    | true =>
      have ih := invBoolAux_get? bs (k + 1) i (by simpa using hi)
      show (invBoolAux bs (k + 1)).get? i = _
      have hc : List.count true (true :: List.take i bs)
          = List.count true (List.take i bs) + 1 := by
        simp [List.count_cons]
      rw [ih, List.getD_cons_succ, List.take_succ_cons, hc]
      by_cases hb : bs.getD i false = true
      · rw [if_pos hb, if_pos hb]
        congr 1
        push_cast
        ring
      · rw [if_neg hb, if_neg hb]

theorem invBool_getD {bs : List Bool} {i : Nat} (h : i < bs.length) :
    (invBool bs).getD i (-11) =
      if bs.getD i false then (((bs.take i).count true : Nat) : Int) else -11 := by
  have hg := invBoolAux_get? bs 0 i h
  rw [invBool, List.getD_eq_getD_get?, hg]
  simp

theorem invBool_pos_iff {bs : List Bool} {i : Nat} (h : i < bs.length) :
    ((invBool bs).getD i (-11) > -1) ↔ bs.getD i false = true := by
  rw [invBool_getD h]
  cases hb : bs.getD i false <;> simp <;> omega

/-- A connectivity row references only vertices kept by the boolean mask. -/
def refsOnlyKept (bs : List Bool) (row : List Int) : Bool :=
  row.all (fun e => bs.getD e.toNat false)

theorem remapRow_all_pos {bs : List Bool} :
    ∀ {row : List Int}, (∀ e ∈ row, 0 ≤ e ∧ e < (bs.length : Int)) →
      ((row.map (fun e => (invBool bs).getD e.toNat (-11))).all
          (fun e => decide (e > -1))) = refsOnlyKept bs row := by
  intro row hv
  induction row with
  | nil => rfl
  | cons e row ih =>
    have h0 := (hv e (by simp)).1
    have h1 : e.toNat < bs.length := by
      have := (hv e (by simp)).2
      omega
    have ihh := ih (fun x hx => hv x (by simp [hx]))
    simp only [List.map_cons, List.all_cons, refsOnlyKept] at ihh ⊢
    rw [ihh]
    congr 1
    rw [Bool.eq_iff_iff, decide_eq_true_iff, invBool_pos_iff h1]

theorem all_id_eq_false_of_mem {bs : List Bool} (h : false ∈ bs) :
    bs.all (fun b => b) = false := by
  rw [List.all_eq_false]
  exact ⟨false, h, by simp⟩

/-- Any full-length inverse array remaps in-range connectivity without
error, producing the elementwise lookups. -/
theorem remapElems_ok {P : Pool} (inv : List Int)
    (he : ∀ row ∈ P.elems, ∀ e ∈ row, 0 ≤ e ∧ e < (P.constVerts.length : Int))
    (hinvlen : inv.length = P.constVerts.length) :
    remapElems inv P.elems =
      .ok (P.elems.map (fun row =>
        row.map (fun e => inv.getD e.toNat (-11)))) := by
  apply mapE_ok
  intro row hrow
  apply mapE_ok
  intro e hee
  have h0 := (he row hrow e hee).1
  have h1 : e.toNat < inv.length := by
    have := (he row hrow e hee).2
    omega
  exact npIndex_ok (-11) h0 h1

/-- Full evaluation of `update_vertices` on a connectivity-carrying pool
with a strictly-removing boolean mask and no caller-supplied inverse: the
internal inverse is built, the connectivity is remapped with sentinel rows
discarded, and the attached data is dropped wholesale by the setter's
revalidation. -/
theorem uv_bools_internal_eval (P : Pool) (bs : List Bool)
    (hk : kindIsVertex P.cls = false)
    (hlen : bs.length = P.constVerts.length)
    (hrem : false ∈ bs)
    (he : ∀ row ∈ P.elems, ∀ e ∈ row, 0 ≤ e ∧ e < (P.constVerts.length : Int))
    (hd : ∀ kv ∈ P.vertexdata, (kv.2 : List ℚ).length = P.constVerts.length) :
    updateVertices P (.bools bs) none =
      .ok { cls := P.cls
            verts := boolSelect P.constVerts bs
            constVerts := boolSelect P.constVerts bs
            elems := (P.elems.map (fun row =>
                row.map (fun e => (invBool bs).getD e.toNat (-11)))).filter
              (fun row => row.all (fun e => decide (e > -1)))
            vertexdata := []
            gen := P.gen + 1 } := by
  have hfast : maskFast (.bools bs) = false := all_id_eq_false_of_mem hrem
  have hsel := selectBool_ok hlen.symm
  have hshort : (boolSelect P.constVerts bs).length < P.constVerts.length := by
    rw [boolSelect_length P.constVerts bs hlen.symm, ← hlen]
    exact count_true_lt_of_mem_false hrem
  have hdropped :
      P.vertexdata.filter
        (fun kv => decide (kv.2.length = (boolSelect P.constVerts bs).length))
        = [] := by
    rw [List.filter_eq_nil_iff]
    intro kv hkv
    have := hd kv hkv
    simp only [decide_eq_true_iff]
    omega
  have hinvlen : (invBool bs).length = P.constVerts.length := by
    rw [invBool_length, hlen]
  have hre := remapElems_ok (invBool bs) he hinvlen
  unfold updateVertices
  rw [if_neg (by simp [hfast])]
  simp [hk, hlen, hre, hsel, hdropped, setVerts, setElems, selectMask,
    bind, Except.bind, mapE]

/-- The map-then-filter form of the internally remapped connectivity equals
filtering the rows that reference only kept vertices and remapping those. -/
theorem internal_filter_map (P : Pool) (bs : List Bool)
    (hlen : bs.length = P.constVerts.length)
    (he : ∀ row ∈ P.elems, ∀ e ∈ row, 0 ≤ e ∧ e < (P.constVerts.length : Int)) :
    (P.elems.map (fun row =>
        row.map (fun e => (invBool bs).getD e.toNat (-11)))).filter
      (fun row => row.all (fun e => decide (e > -1))) =
      (P.elems.filter (fun row => refsOnlyKept bs row)).map
        (fun row => row.map (fun e => (invBool bs).getD e.toNat (-11))) := by
  rw [List.filter_map]
  congr 1
  apply List.filter_congr
  intro row hrow
  simp only [Function.comp]
  exact remapRow_all_pos (fun e hee => by
    have := he row hrow e hee
    rw [hlen]
    exact this)

/-- Full evaluation of `update_vertices` on a connectivity-carrying pool
with a strictly-removing boolean mask and a caller-supplied inverse: the
connectivity is remapped elementwise and NO row is discarded, sentinel
entries included. -/
theorem uv_bools_supplied_eval (P : Pool) (bs : List Bool) (inv : List Int)
    (hk : kindIsVertex P.cls = false)
    (hlen : bs.length = P.constVerts.length)
    (hrem : false ∈ bs)
    (he : ∀ row ∈ P.elems, ∀ e ∈ row, 0 ≤ e ∧ e < (P.constVerts.length : Int))
    (hd : ∀ kv ∈ P.vertexdata, (kv.2 : List ℚ).length = P.constVerts.length)
    (hinvlen : inv.length = P.constVerts.length) :
    updateVertices P (.bools bs) (some inv) =
      .ok { cls := P.cls
            verts := boolSelect P.constVerts bs
            constVerts := boolSelect P.constVerts bs
            elems := P.elems.map (fun row =>
              row.map (fun e => inv.getD e.toNat (-11)))
            vertexdata := []
            gen := P.gen + 1 } := by
  have hfast : maskFast (.bools bs) = false := all_id_eq_false_of_mem hrem
  have hsel := selectBool_ok hlen.symm
  have hshort : (boolSelect P.constVerts bs).length < P.constVerts.length := by
    rw [boolSelect_length P.constVerts bs hlen.symm, ← hlen]
    exact count_true_lt_of_mem_false hrem
  have hdropped :
      P.vertexdata.filter
        (fun kv => decide (kv.2.length = (boolSelect P.constVerts bs).length))
        = [] := by
    rw [List.filter_eq_nil_iff]
    intro kv hkv
    have := hd kv hkv
    simp only [decide_eq_true_iff]
    omega
  have hre := remapElems_ok inv he hinvlen
  unfold updateVertices
  rw [if_neg (by simp [hfast])]
  simp [hk, hre, hsel, hdropped, setVerts, setElems, selectMask,
    bind, Except.bind, mapE]

/-- C8 (amended): for a connectivity-carrying pool, a boolean mask that
removes at least one vertex, and well-formed pool data, `update_vertices`
re-indexes the connectivity elementwise through the inverse map; rows that
still contain a sentinel after the remap are discarded **only when the
inverse was computed internally** (`inverse=None`).  When the caller supplies
the inverse, the remapped rows are kept verbatim, sentinels included. -/
theorem updateVertices_connectivity (P : Pool) (bs : List Bool)
    (hk : kindIsVertex P.cls = false)
    (hlen : bs.length = P.constVerts.length)
    (hrem : false ∈ bs)
    (he : ∀ row ∈ P.elems, ∀ e ∈ row, 0 ≤ e ∧ e < (P.constVerts.length : Int))
    (hd : ∀ kv ∈ P.vertexdata, (kv.2 : List ℚ).length = P.constVerts.length) :
    (∃ P₁, updateVertices P (.bools bs) none = .ok P₁ ∧
        P₁.elems = (P.elems.filter (fun row => refsOnlyKept bs row)).map
          (fun row => row.map (fun e => (invBool bs).getD e.toNat (-11)))) ∧
    (∀ inv : List Int, inv.length = P.constVerts.length →
      ∃ P₂, updateVertices P (.bools bs) (some inv) = .ok P₂ ∧
        P₂.elems = P.elems.map
          (fun row => row.map (fun e => inv.getD e.toNat (-11)))) :=
  ⟨⟨_, uv_bools_internal_eval P bs hk hlen hrem he hd,
      internal_filter_map P bs hlen he⟩,
    fun inv hinvlen =>
      ⟨_, uv_bools_supplied_eval P bs inv hk hlen hrem he hd hinvlen, rfl⟩⟩

/-- The connectivity-carrying pool of the C8 counterexample. -/
def exPoolC8 : Pool :=
  { cls := .edges
    verts := [[0], [1], [2]]
    constVerts := [[0], [1], [2]]
    elems := [[0, 2], [1, 2]]
    vertexdata := []
    gen := 0 }

/-- C8 counterexample: with a **caller-supplied** inverse map containing the
sentinel `-1` for the removed vertex 1, the remapped row `[-1, 1]` — which
references a removed vertex — is NOT discarded from the result, contradicting
the claim that sentinel rows are dropped whether the inverse is supplied or
computed internally. -/
theorem updateVertices_supplied_inverse_keeps_sentinel :
    updateVertices exPoolC8 (.bools [true, false, true]) (some [0, -1, 1]) =
      .ok { cls := .edges
            verts := [[0], [2]]
            constVerts := [[0], [2]]
            elems := [[0, 1], [-1, 1]]
            vertexdata := []
            gen := 1 } ∧
    ∃ row ∈ [[(0 : Int), 1], [-1, 1]], ∃ e ∈ row, e < 0 :=
  ⟨by decide, by decide⟩

theorem updateVertices_connectivity_witness :
    (kindIsVertex exPoolC8.cls = false ∧
      ([true, false, true] : List Bool).length = exPoolC8.constVerts.length ∧
      false ∈ [true, false, true] ∧
      (∀ row ∈ exPoolC8.elems, ∀ e ∈ row,
        0 ≤ e ∧ e < (exPoolC8.constVerts.length : Int)) ∧
      (∀ kv ∈ exPoolC8.vertexdata,
        (kv.2 : List ℚ).length = exPoolC8.constVerts.length)) ∧
    ((∃ P₁, updateVertices exPoolC8 (.bools [true, false, true]) none = .ok P₁ ∧
        P₁.elems = (exPoolC8.elems.filter
            (fun row => refsOnlyKept [true, false, true] row)).map
          (fun row =>
            row.map (fun e => (invBool [true, false, true]).getD e.toNat (-11)))) ∧
    (∀ inv : List Int, inv.length = exPoolC8.constVerts.length →
      ∃ P₂, updateVertices exPoolC8 (.bools [true, false, true]) (some inv) = .ok P₂ ∧
        P₂.elems = exPoolC8.elems.map
          (fun row => row.map (fun e => inv.getD e.toNat (-11))))) :=
  ⟨⟨rfl, rfl, by decide, by decide, by decide⟩,
    updateVertices_connectivity exPoolC8 [true, false, true] rfl rfl
      (by decide) (by decide) (by decide)⟩

/-! ## C2: the vertices setter on arbitrary-rank input -/

/-- A numpy array of arbitrary rank: its shape and flattened contents. -/
structure NArr where
  shape : List Nat
  data : List ℚ
  deriving DecidableEq

/-- Pool state as seen by the vertices setter: the tracked buffer
`_vertices` with its identity generation `bufGen` (a fresh tracked array has
a fresh identity, which is what invalidates the `_computed` cache), the
read-only view `_const_vertices`, the attached-data table keyed by name, and
the `_computed` cache slot, which the setter's code never touches
directly. -/
structure NPool where
  buf : NArr
  bufGen : Nat
  constBuf : NArr
  vertexdata : List (String × NArr)
  computed : Nat
  deriving DecidableEq

/-- Modelled from the spec: `utils.arr.is_shape(vs, (-1, -1), strict=True)`
validates that the array has exactly two dimensions and raises (the spec's
`ShapeError`) otherwise. -/
def isShapeRank2 (a : NArr) : Bool := a.shape.length = 2

/-- The `Vertices.vertices` setter on an arbitrary input array, following the
source order: (1) `self._vertices = make_tracked_array(vs, ...)` — the new
buffer is stored, with a fresh tracked identity, BEFORE any validation;
(2) the rank-2 shape check, raising on failure; (3) the fresh read-only
view; (4) revalidation of the attached data (entries whose first dimension
differs from the new row count are dropped; `VertexData._validate_len` is
modelled from the spec).  The result pairs the post-call state with the
raised error, if any: a Python exception does not roll back mutations that
already happened. -/
def verticesSetter (P : NPool) (vs : NArr) : NPool × Option GErr :=
  let P1 := { P with buf := vs, bufGen := P.bufGen + 1 }
  if isShapeRank2 vs then
    let P2 := { P1 with constBuf := vs }
    let vd := P2.vertexdata.filter
      (fun kv => decide (kv.2.shape.headD 0 = vs.shape.headD 0))
    ({ P2 with vertexdata := vd }, none)
  else (P1, some .shapeError)

/-- The pool of the C2 counterexample, holding a rank-2 buffer. -/
def exNPool : NPool :=
  { buf := { shape := [1, 2], data := [1, 2] }
    bufGen := 0
    constBuf := { shape := [1, 2], data := [1, 2] }
    vertexdata := []
    computed := 0 }

/-- C2 counterexample: assigning a rank-1 array raises the shape error, but
the tracked buffer `_vertices` has already been replaced by then — the pool
is NOT left with every field untouched, contradicting the claim that a
failing assignment touches no field. -/
theorem verticesSetter_not_atomic :
    (verticesSetter exNPool { shape := [2], data := [3, 4] }).2 =
        some GErr.shapeError ∧
    (verticesSetter exNPool { shape := [2], data := [3, 4] }).1.buf ≠
        exNPool.buf ∧
    (verticesSetter exNPool { shape := [2], data := [3, 4] }).1 ≠ exNPool :=
  ⟨rfl, by decide, by decide⟩

/-- C2 (amended): assigning an array that is not rank-2 fails with the shape
error, and the failure happens after the new buffer has been stored in
`_vertices` (with a fresh tracked identity) but before anything else is
touched: the read-only view, the attached-data table and the cache slot keep
their old values, leaving `_vertices` and `_const_vertices` out of sync. -/
theorem verticesSetter_shape_failure (P : NPool) (vs : NArr)
    (h : vs.shape.length ≠ 2) :
    verticesSetter P vs =
      ({ P with buf := vs, bufGen := P.bufGen + 1 }, some .shapeError) := by
  unfold verticesSetter
  rw [if_neg (by simpa [isShapeRank2] using h)]

theorem verticesSetter_shape_failure_witness :
    ({ shape := [2], data := [3, 4] } : NArr).shape.length ≠ 2 ∧
    verticesSetter exNPool { shape := [2], data := [3, 4] } =
      ({ exNPool with
          buf := { shape := [2], data := [3, 4] }
          bufGen := exNPool.bufGen + 1 }, some .shapeError) :=
  ⟨by decide,
    verticesSetter_shape_failure exNPool { shape := [2], data := [3, 4] }
      (by decide)⟩

/-! ## `concat`: structure-preserving concatenation -/

/-- A Python value passed to `concat`: a pool instance, a character string,
or a list (the iterable we model; Python strings are iterable too, which is
why the source excludes them explicitly before unpacking). -/
inductive Val
  | pool (P : Pool)
  | str (s : String)
  | listV (l : List Val)

/-- `hasattr(x, "__iter__") and not isinstance(x, str)` over modelled
values. -/
def iterableNotStr : Val → Bool
  | .listV _ => true
  | _ => false

/-- Members of an iterable value. -/
def unpackVal : Val → List Val
  | .listV l => l
  | v => [v]

/-- The argument-adjustment step of `concat`: a single non-string iterable
argument is replaced by its members. -/
def unpackArgs : List Val → List Val
  | [v] => if iterableNotStr v then unpackVal v else [v]
  | args => args

/-- `is_concatable(inst)`: `isinstance(inst, cls)`. -/
def isConcatable (cls : Kind) : Val → Bool
  | .pool P => subclassOf P.cls cls
  | _ => false

/-- Modelled from the spec: the referenced-vertex mask used by
`remove_unreferenced_vertices` — entry `i` is `True` when some connectivity
row mentions vertex `i`. -/
def referencedMask (P : Pool) : List Bool :=
  (List.range P.constVerts.length).map
    (fun (i : Nat) =>
      P.elems.any (fun row => row.any (fun e => decide (e = (i : Int)))))

/-- Modelled from the spec: `remove_unreferenced_vertices`, supplied by the
connectivity collaborator of non-vertex kinds and a no-op for plain point
pools, drops the vertices not referenced by the pool's own connectivity by
delegating to `update_vertices` with the referenced-vertex mask. -/
def removeUnreferencedVertices (P : Pool) : Except GErr Pool :=
  if kindIsVertex P.cls then .ok P
  else updateVertices P (.bools (referencedMask P)) none

/-- numpy `arr.max()` over an integer connectivity array; an empty array
raises `ValueError`. -/
def intMax (es : List (List Int)) : Except GErr Int :=
  match es.flatten with
  | [] => .error .valueError
  | x :: xs => .ok (xs.foldl max x)

/-- All rows share one length (the column count of a stacked 2-D array). -/
def sameWidths : List (List α) → Bool
  | [] => true
  | r :: rs => rs.all (fun s => decide (s.length = r.length))

/-- numpy `np.vstack(arrs)`: stacking a sequence of 2-D arrays requires a
nonempty sequence whose arrays all share one column count, and raises
`ValueError` otherwise; the result is the concatenation of the rows.  (An
array with zero rows contributes no row to the width check, as the modelled
arrays carry no standalone column count.) -/
def vstackE (arrs : List (List (List α))) : Except GErr (List (List α)) :=
  if arrs.isEmpty then .error .valueError
  else if sameWidths arrs.flatten then .ok arrs.flatten
  else .error .valueError

/-- The loop of `Vertices.concat`: for each instance, check concatability
(raising `TypeError` — the spec's `TypeKindMismatchError` — otherwise), drop
its unreferenced vertices on a copy, collect its vertices, and, for
connectivity-carrying classes, collect its elements shifted by the running
offset `elements[-1].max() + 1`. -/
def concatLoop (cls : Kind) :
    List Val → List (List Vec) → List (List (List Int)) → Int →
    Except GErr (List (List Vec) × List (List (List Int)))
  | [], vacc, eacc, _ => .ok (vacc, eacc)
  | v :: rest, vacc, eacc, off =>
    match v with
    | .pool P =>
      if subclassOf P.cls cls then do
        let tmp ← removeUnreferencedVertices P
        if kindIsVertex cls then
          concatLoop cls rest (vacc ++ [tmp.verts]) eacc off
        else
          if eacc.isEmpty then do
            let m ← intMax tmp.elems
            concatLoop cls rest (vacc ++ [tmp.verts]) (eacc ++ [tmp.elems])
              (m + 1)
          else do
            let shifted := tmp.elems.map (fun row => row.map (fun e => e + off))
            let m ← intMax shifted
            concatLoop cls rest (vacc ++ [tmp.verts]) (eacc ++ [shifted])
              (m + 1)
      else .error .typeError
    | _ => .error .typeError

/-- `Vertices.concat(*instances)` invoked on the class `cls`: adjust a single
iterable argument, run the loop, and `np.vstack` the collected vertices (and,
for connectivity-carrying classes, elements — Python evaluates the
`vertices=` stack before the `elements=` stack) into a freshly constructed
pool; `np.vstack` raises `ValueError` on an empty sequence or on arrays of
mismatched column counts. -/
def concat (cls : Kind) (args : List Val) : Except GErr Pool := do
  let instances := unpackArgs args
  let acc ← concatLoop cls instances [] [] 0
  let vs ← vstackE acc.1
  if kindIsVertex cls then
    .ok { cls := .vertices
          verts := vs
          constVerts := vs
          elems := []
          vertexdata := []
          gen := 0 }
  else do
    let es ← vstackE acc.2
    .ok { cls := cls
          verts := vs
          constVerts := vs
          elems := es
          vertexdata := []
          gen := 0 }

/-- Well-formedness of a pool as maintained by the library: the tracked
buffer and its read-only view agree, connectivity indices are in range,
attached-data entries are row-synchronized, and a plain point pool (the
`Vertices` class has no `elements` attribute at all) carries no
connectivity. -/
def WfPool (P : Pool) : Prop :=
  P.verts = P.constVerts ∧
  (∀ row ∈ P.elems, ∀ e ∈ row, 0 ≤ e ∧ e < (P.constVerts.length : Int)) ∧
  (∀ kv ∈ P.vertexdata, (kv.2 : List ℚ).length = P.constVerts.length) ∧
  (kindIsVertex P.cls = true → P.elems = [])

instance (P : Pool) : Decidable (WfPool P) := by
  unfold WfPool
  infer_instance

/-! ## Success of the per-instance processing inside `concat` -/

theorem referencedMask_length (P : Pool) :
    (referencedMask P).length = P.constVerts.length := by
  rw [referencedMask, List.length_map, List.length_range]

theorem referencedMask_getD {P : Pool} {i : Nat}
    (h : i < P.constVerts.length) :
    (referencedMask P).getD i false =
      P.elems.any (fun row => row.any (fun e => decide (e = (i : Int)))) := by
  rw [referencedMask, List.getD_eq_getD_get?, List.get?_map, List.get?_range h]
  rfl

/-- Every connectivity row references only vertices that the referenced-mask
keeps (each row's vertices are referenced — by that very row). -/
theorem refsOnlyKept_referencedMask (P : Pool)
    (he : ∀ row ∈ P.elems, ∀ e ∈ row, 0 ≤ e ∧ e < (P.constVerts.length : Int)) :
    ∀ row ∈ P.elems, refsOnlyKept (referencedMask P) row = true := by
  intro row hrow
  rw [refsOnlyKept, List.all_eq_true]
  intro e hee
  have h0 := (he row hrow e hee).1
  have h1 : e.toNat < P.constVerts.length := by
    have := (he row hrow e hee).2
    omega
  rw [referencedMask_getD h1]
  rw [List.any_eq_true]
  refine ⟨row, hrow, ?_⟩
  rw [List.any_eq_true]
  refine ⟨e, hee, ?_⟩
  simp
  omega

theorem flatten_length_map_map (g : Int → Int) (es : List (List Int)) :
    (es.map (fun row => row.map g)).flatten.length = es.flatten.length := by
  induction es with
  | nil => rfl
  | cons r es ih => simp [ih]

/-- Dropping unreferenced vertices succeeds on a well-formed pool and keeps
the flattened connectivity size (no row ever references a removed — i.e.
unreferenced — vertex, so no row is discarded). -/
theorem removeUnref_ok (P : Pool) (hwf : WfPool P) :
    ∃ Q, removeUnreferencedVertices P = .ok Q ∧
      Q.elems.flatten.length = P.elems.flatten.length := by
  obtain ⟨hv, he, hd, hvx⟩ := hwf
  unfold removeUnreferencedVertices
  by_cases hk : kindIsVertex P.cls = true
  · rw [if_pos hk]
    exact ⟨P, rfl, rfl⟩
  · rw [if_neg hk]
    by_cases hall : (referencedMask P).all (fun b => b) = true
    · refine ⟨P, ?_, rfl⟩
      have hfast : maskFast (.bools (referencedMask P)) = true := hall
      unfold updateVertices
      rw [if_pos hfast]
    · have hallf : (referencedMask P).all (fun b => b) = false := by
        revert hall
        cases h : (referencedMask P).all (fun b => b) <;> simp
      have hrem : false ∈ referencedMask P := by
        rcases List.all_eq_false.mp hallf with ⟨x, hx, hnx⟩
        cases x with
        | false => exact hx
        | true => simp at hnx
      have heval := uv_bools_internal_eval P (referencedMask P)
        (by simpa using hk) (referencedMask_length P) hrem he hd
      refine ⟨_, heval, ?_⟩
      show ((P.elems.map (fun row => row.map
          (fun e => (invBool (referencedMask P)).getD e.toNat (-11)))).filter
        (fun row => row.all (fun e => decide (e > -1)))).flatten.length = _
      rw [internal_filter_map P (referencedMask P) (referencedMask_length P) he,
        List.filter_eq_self.mpr (fun row hrow => by
          rw [refsOnlyKept_referencedMask P he row hrow]),
        flatten_length_map_map]

theorem intMax_ok_of_flatten_ne {es : List (List Int)} (h : es.flatten ≠ []) :
    ∃ m, intMax es = .ok m := by
  unfold intMax
  cases hf : es.flatten with
  | nil => exact absurd hf h
  | cons x xs => exact ⟨_, rfl⟩

/-- When some member of the instance list is not concatable, the loop raises
the type error: every concatable pool before it processes successfully under
well-formedness. -/
theorem concatLoop_typeError (cls : Kind) :
    ∀ (vals : List Val) (vacc : List (List Vec))
      (eacc : List (List (List Int))) (off : Int),
      (∀ Q, Val.pool Q ∈ vals →
        WfPool Q ∧ (kindIsVertex cls = false → Q.elems.flatten ≠ [])) →
      (∃ v ∈ vals, isConcatable cls v = false) →
      concatLoop cls vals vacc eacc off = .error .typeError := by
  intro vals
  induction vals with
  | nil =>
    intro vacc eacc off _ hbad
    rcases hbad with ⟨v, hv, _⟩
    simp at hv
  | cons v rest ih =>
    intro vacc eacc off hwf hbad
    by_cases hcc : isConcatable cls v = true
    · cases v with
      | pool Q =>
        have hsub : subclassOf Q.cls cls = true := hcc
        have hbad' : ∃ w ∈ rest, isConcatable cls w = false := by
          rcases hbad with ⟨w, hw, hwc⟩
          rcases List.mem_cons.mp hw with rfl | hw'
          · rw [hcc] at hwc
            cases hwc
          · exact ⟨w, hw', hwc⟩
        have hwfQ := hwf Q (by simp)
        obtain ⟨tmp, htmp, hflatlen⟩ := removeUnref_ok Q hwfQ.1
        have hwfrest : ∀ R, Val.pool R ∈ rest →
            WfPool R ∧ (kindIsVertex cls = false → R.elems.flatten ≠ []) :=
          fun R hR => hwf R (by simp [hR])
        by_cases hkc : kindIsVertex cls = true
        · simp only [concatLoop, hsub, if_true, htmp, hkc, bind, Except.bind]
          exact ih _ _ _ hwfrest hbad'
        · have hkc' : kindIsVertex cls = false := by
            revert hkc
            cases h : kindIsVertex cls <;> simp
          have hne : tmp.elems.flatten ≠ [] := by
            intro hnil
            have h0 : tmp.elems.flatten.length = 0 := by rw [hnil]; rfl
            rw [hflatlen] at h0
            exact hwfQ.2 hkc' (List.length_eq_zero.mp h0)
          by_cases hea : eacc.isEmpty
          · obtain ⟨m, hm⟩ := intMax_ok_of_flatten_ne hne
            simp only [concatLoop, hsub, if_true, htmp, hkc', hea, hm,
              bind, Except.bind, Bool.false_eq_true, if_false]
            exact ih _ _ _ hwfrest hbad'
          · have hneS : (tmp.elems.map
                (fun row => row.map (fun e => e + off))).flatten ≠ [] := by
              intro hnil
              have h0 := congrArg List.length hnil
              rw [flatten_length_map_map] at h0
              exact hne (List.length_eq_zero.mp h0)
            obtain ⟨m, hm⟩ := intMax_ok_of_flatten_ne hneS
            simp only [concatLoop, hsub, if_true, htmp, hkc', hea, hm,
              bind, Except.bind, Bool.false_eq_true, if_false]
            exact ih _ _ _ hwfrest hbad'
      | str s => simp [isConcatable] at hcc
      | listV l => simp [isConcatable] at hcc
    · cases v with
      | pool Q =>
        have hsubf : subclassOf Q.cls cls = false := by
          revert hcc
          simp only [isConcatable]
          cases h : subclassOf Q.cls cls <;> simp
        simp [concatLoop, hsubf]
      | str s => simp [concatLoop]
      | listV l => simp [concatLoop]

/-! ## C6: concat rejects incompatible inputs -/

/-- C6: for every call to `concat` on a class `cls` whose (well-formed) pool
inputs carry nonempty connectivity when `cls` does, if any input is not an
instance of `cls`, the whole call fails with the type error (the spec's
`TypeKindMismatchError`) and no pool is produced. -/
theorem concat_type_mismatch (cls : Kind) (args : List Val)
    (hwf : ∀ Q, Val.pool Q ∈ unpackArgs args →
      WfPool Q ∧ (kindIsVertex cls = false → Q.elems.flatten ≠ []))
    (hbad : ∃ v ∈ unpackArgs args, isConcatable cls v = false) :
    concat cls args = .error .typeError := by
  have h := concatLoop_typeError cls (unpackArgs args) [] [] 0 hwf hbad
  simp [concat, h, bind, Except.bind]

theorem concat_type_mismatch_witness :
    (∀ Q, Val.pool Q ∈ unpackArgs [Val.str "not a pool"] →
      WfPool Q ∧ (kindIsVertex .vertices = false → Q.elems.flatten ≠ [])) ∧
    (∃ v ∈ unpackArgs [Val.str "not a pool"],
      isConcatable .vertices v = false) ∧
    concat .vertices [Val.str "not a pool"] = .error .typeError := by
  refine ⟨?_, ⟨Val.str "not a pool", by simp [unpackArgs, iterableNotStr], rfl⟩, ?_⟩
  · intro Q hQ
    simp [unpackArgs, iterableNotStr] at hQ
  · exact concat_type_mismatch .vertices [Val.str "not a pool"]
      (by intro Q hQ; simp [unpackArgs, iterableNotStr] at hQ)
      ⟨Val.str "not a pool", by simp [unpackArgs, iterableNotStr], rfl⟩

/-! ## C10: a single iterable argument is unpacked -/

/-! ## C10: a single iterable argument is unpacked -/

/-- C10: calling `concat` with exactly one argument that is a (non-string)
iterable of pools concatenates that iterable's members, so
`concat([A, B, ...])` produces the same result as `concat(A, B, ...)` for
every list of pools — including the singleton and empty cases, where both
calls behave identically as well. -/
theorem concat_single_iterable (cls : Kind) (ps : List Pool) :
    concat cls [Val.listV (ps.map Val.pool)] = concat cls (ps.map Val.pool) := by
  cases ps with
  | nil => rfl
  | cons a ps' =>
    cases ps' with
    | nil => rfl
    | cons b ps'' => rfl

/-! ## C7: connectivity offsets in `concat` -/

/-- A pool whose connectivity references every one of its vertices passes
through the unreferenced-vertex drop unchanged (the referenced mask is
all-true, so `update_vertices` takes its no-op fast path). -/
theorem removeUnref_id_of_cov (P : Pool)
    (hcov : ∀ i < P.constVerts.length, ∃ row ∈ P.elems, (i : Int) ∈ row) :
    removeUnreferencedVertices P = .ok P := by
  by_cases hk : kindIsVertex P.cls = true
  · unfold removeUnreferencedVertices
    rw [if_pos hk]
  · have hall : (referencedMask P).all (fun b => b) = true := by
      rw [List.all_eq_true]
      intro x hx
      rw [referencedMask] at hx
      rcases List.mem_map.mp hx with ⟨i, hi, rfl⟩
      have hi' : i < P.constVerts.length := List.mem_range.mp hi
      rcases hcov i hi' with ⟨row, hrow, he⟩
      rw [List.any_eq_true]
      refine ⟨row, hrow, ?_⟩
      rw [List.any_eq_true]
      exact ⟨(i : Int), he, by simp⟩
    unfold removeUnreferencedVertices
    rw [if_neg hk]
    have hfast : maskFast (.bools (referencedMask P)) = true := hall
    unfold updateVertices
    rw [if_pos hfast]

theorem foldl_max_le : ∀ (l : List Int) (a M : Int), a ≤ M →
    (∀ y ∈ l, y ≤ M) → l.foldl max a ≤ M
  | [], _, _, ha, _ => ha
  | x :: xs, a, M, ha, h => by
    apply foldl_max_le xs (max a x) M (max_le ha (h x (by simp)))
    exact fun y hy => h y (by simp [hy])

theorem le_foldl_max_self : ∀ (l : List Int) (a : Int), a ≤ l.foldl max a
  | [], a => le_refl a
  | x :: xs, a => le_trans (le_max_left a x) (le_foldl_max_self xs (max a x))

theorem le_foldl_max_mem : ∀ (l : List Int) (a y : Int), y ∈ l →
    y ≤ l.foldl max a
  | [], _, y, hy => by simp at hy
  | x :: xs, a, y, hy => by
    rcases List.mem_cons.mp hy with rfl | hy'
    · exact le_trans (le_max_right a y) (le_foldl_max_self xs (max a y))
    · exact le_foldl_max_mem xs (max a x) y hy'

/-- `elements.max()` is the maximum entry. -/
theorem intMax_eq {es : List (List Int)} {M : Int}
    (hub : ∀ e ∈ es.flatten, e ≤ M) (hmem : M ∈ es.flatten) :
    intMax es = .ok M := by
  unfold intMax
  cases hf : es.flatten with
  | nil =>
    rw [hf] at hmem
    simp at hmem
  | cons x xs =>
    rw [hf] at hub hmem
    have hfx : xs.foldl max x = M := by
      apply le_antisymm
      · exact foldl_max_le xs x M (hub x (by simp))
          (fun y hy => hub y (by simp [hy]))
      · rcases List.mem_cons.mp hmem with rfl | hm
        · exact le_foldl_max_self xs M
        · exact le_foldl_max_mem xs x M hm
    show Except.ok (List.foldl max x xs) = Except.ok M
    rw [hfx]

/-- For a pool whose connectivity is valid and references every vertex, the
maximum connectivity entry is the vertex count minus one. -/
theorem intMax_cov (P : Pool)
    (hwfe : ∀ row ∈ P.elems, ∀ e ∈ row, 0 ≤ e ∧ e < (P.constVerts.length : Int))
    (hcov : ∀ i < P.constVerts.length, ∃ row ∈ P.elems, (i : Int) ∈ row)
    (hne : P.elems.flatten ≠ []) :
    intMax P.elems = .ok ((P.constVerts.length : Int) - 1) := by
  have hn : 0 < P.constVerts.length := by
    rcases List.exists_mem_of_ne_nil _ hne with ⟨e, he⟩
    rcases List.mem_flatten.mp he with ⟨row, hrow, hee⟩
    have := hwfe row hrow e hee
    omega
  apply intMax_eq
  · intro e he'
    rcases List.mem_flatten.mp he' with ⟨row, hrow, hee⟩
    have := hwfe row hrow e hee
    omega
  · rcases hcov (P.constVerts.length - 1) (by omega) with ⟨row, hrow, he⟩
    rw [List.mem_flatten]
    refine ⟨row, hrow, ?_⟩
    have hcast : ((P.constVerts.length - 1 : Nat) : Int) =
        (P.constVerts.length : Int) - 1 := by omega
    rwa [hcast] at he

/-- The left input of the C7 counterexample: two vertices, both referenced
by the single edge. -/
def exA7 : Pool :=
  { cls := .edges
    verts := [[0], [1]]
    constVerts := [[0], [1]]
    elems := [[0, 1]]
    vertexdata := []
    gen := 0 }

/-- The right input of the C7 counterexample: three vertices, the third one
unreferenced by its own connectivity. -/
def exB7 : Pool :=
  { cls := .edges
    verts := [[5], [6], [7]]
    constVerts := [[5], [6], [7]]
    elems := [[0, 1]]
    vertexdata := []
    gen := 0 }

/-- C7 counterexample: A's connectivity references exactly
`[0, len(A.positions))`, yet the result of `concat(A, B)` does NOT make B's
connectivity reference exactly `[len(A.positions),
len(A.positions)+len(B.positions))`: B carries an unreferenced vertex, which
the per-input unreferenced-drop removes, so index 4 of the claimed range
`[2, 5)` is never referenced (B's row in the result references only
`{2, 3}`). -/
theorem concat_range_counterexample :
    (∀ i < exA7.constVerts.length, ∃ row ∈ exA7.elems, (i : Int) ∈ row) ∧
    (∀ row ∈ exA7.elems, ∀ e ∈ row, 0 ≤ e ∧ e < (exA7.constVerts.length : Int)) ∧
    concat .edges [Val.pool exA7, Val.pool exB7] =
      .ok { cls := .edges
            verts := [[0], [1], [5], [6]]
            constVerts := [[0], [1], [5], [6]]
            elems := [[0, 1], [2, 3]]
            vertexdata := []
            gen := 0 } ∧
    ¬ (∀ k : Int, (exA7.constVerts.length : Int) ≤ k →
        k < (exA7.constVerts.length : Int) + (exB7.constVerts.length : Int) →
        ∃ row ∈ [[(2 : Int), 3]], k ∈ row) := by
  refine ⟨by decide, by decide, by decide, ?_⟩
  intro hcl
  rcases hcl 4 (by decide) (by decide) with ⟨row, hrow, hk⟩
  simp only [List.mem_singleton] at hrow
  subst hrow
  simp at hk

/-- All rows of a list of row-lists have pairwise equal lengths exactly when
`sameWidths` holds. -/
theorem sameWidths_eq_true_iff {α : Type _} (l : List (List α)) :
    sameWidths l = true ↔ ∀ r ∈ l, ∀ s ∈ l, r.length = s.length := by
  cases l with
  | nil => simp [sameWidths]
  | cons r rs =>
    simp only [sameWidths, List.all_eq_true, decide_eq_true_iff]
    constructor
    · intro h a ha b hb
      have ha' : a.length = r.length := by
        rcases List.mem_cons.mp ha with rfl | ha'
        · rfl
        · exact h a ha'
      have hb' : b.length = r.length := by
        rcases List.mem_cons.mp hb with rfl | hb'
        · rfl
        · exact h b hb'
      rw [ha', hb']
    · intro h a ha
      exact h a (by simp [ha]) r (by simp)

/-- Shifting the connectivity entries of the second block preserves the
uniform-width property of the stacked element rows. -/
theorem sameWidths_shift (as bs : List (List Int)) (c : Int)
    (h : sameWidths (as ++ bs) = true) :
    sameWidths (as ++ bs.map (fun row => row.map (fun e => e + c))) = true := by
  rw [sameWidths_eq_true_iff] at h ⊢
  have key : ∀ r ∈ as ++ bs.map (fun row => row.map (fun e => e + c)),
      ∃ r0 ∈ as ++ bs, r.length = r0.length := by
    intro r hr
    rcases List.mem_append.mp hr with h1 | h2
    · exact ⟨r, List.mem_append.mpr (Or.inl h1), rfl⟩
    · rcases List.mem_map.mp h2 with ⟨b, hb, rfl⟩
      exact ⟨b, List.mem_append.mpr (Or.inr hb), by simp⟩
  intro r hr s hs
  rcases key r hr with ⟨r0, hr0, hrl⟩
  rcases key s hs with ⟨s0, hs0, hsl⟩
  rw [hrl, hsl]
  exact h r0 hr0 s0 hs0

/-- C7 (amended): when both inputs are well-formed connectivity-carrying
pools each of whose vertices is referenced by its own connectivity, and the
stacked position rows and the stacked element rows each share one column
width (so neither `np.vstack` raises), the concatenation stacks the
positions, offsets B's connectivity by the running maximum index + 1 — which
equals `len(A.positions)` — and in the result B's rows reference exactly
`[len(A.positions), len(A.positions)+len(B.positions))`, with every index of
the result in range of the stacked positions. -/
theorem concat_offsets (cls : Kind) (A B : Pool)
    (hcls : kindIsVertex cls = false)
    (hA : subclassOf A.cls cls = true) (hB : subclassOf B.cls cls = true)
    (hwfA : WfPool A) (hwfB : WfPool B)
    (hcovA : ∀ i < A.constVerts.length, ∃ row ∈ A.elems, (i : Int) ∈ row)
    (hcovB : ∀ i < B.constVerts.length, ∃ row ∈ B.elems, (i : Int) ∈ row)
    (hneA : A.elems.flatten ≠ []) (hneB : B.elems.flatten ≠ [])
    (hwV : sameWidths (A.constVerts ++ B.constVerts) = true)
    (hwE : sameWidths (A.elems ++ B.elems) = true) :
    concat cls [.pool A, .pool B] =
      .ok { cls := cls
            verts := A.constVerts ++ B.constVerts
            constVerts := A.constVerts ++ B.constVerts
            elems := A.elems ++ B.elems.map (fun row =>
              row.map (fun e => e + (A.constVerts.length : Int)))
            vertexdata := []
            gen := 0 } ∧
    (∀ row ∈ B.elems.map (fun row =>
        row.map (fun e => e + (A.constVerts.length : Int))), ∀ e ∈ row,
      (A.constVerts.length : Int) ≤ e ∧
        e < (A.constVerts.length : Int) + (B.constVerts.length : Int)) ∧
    (∀ k : Int, (A.constVerts.length : Int) ≤ k →
        k < (A.constVerts.length : Int) + (B.constVerts.length : Int) →
      ∃ row ∈ B.elems.map (fun row =>
        row.map (fun e => e + (A.constVerts.length : Int))), k ∈ row) ∧
    (∀ row ∈ A.elems ++ B.elems.map (fun row =>
        row.map (fun e => e + (A.constVerts.length : Int))), ∀ e ∈ row,
      0 ≤ e ∧ e < (A.constVerts.length : Int) + (B.constVerts.length : Int)) := by
  have hrA := removeUnref_id_of_cov A hcovA
  have hrB := removeUnref_id_of_cov B hcovB
  have hmaxA := intMax_cov A hwfA.2.1 hcovA hneA
  have hneS : (B.elems.map (fun row =>
      row.map (fun e => e + (A.constVerts.length : Int)))).flatten ≠ [] := by
    intro hnil
    have h0 := congrArg List.length hnil
    rw [flatten_length_map_map] at h0
    exact hneB (List.length_eq_zero.mp h0)
  obtain ⟨m2, hm2⟩ := intMax_ok_of_flatten_ne hneS
  have hoff : ∀ e : Int, e + ((A.constVerts.length : Int) - 1 + 1) =
      e + (A.constVerts.length : Int) := by
    intro e
    ring
  have hloop : concatLoop cls [Val.pool A, Val.pool B] [] [] 0 =
      .ok ([A.verts, B.verts], [A.elems, B.elems.map (fun row =>
        row.map (fun e => e + (A.constVerts.length : Int)))]) := by
    simp only [concatLoop, hA, hB, if_true, hrA, hrB, hcls, hmaxA, hm2,
      bind, Except.bind, Bool.false_eq_true, if_false, List.isEmpty_nil,
      List.isEmpty_cons, List.nil_append, List.cons_append, hoff]
  refine ⟨?_, ?_, ?_, ?_⟩
  · have hvA : A.verts = A.constVerts := hwfA.1
    have hvB : B.verts = B.constVerts := hwfB.1
    have hfl1 : [A.verts, B.verts].flatten = A.constVerts ++ B.constVerts := by
      simp [hvA, hvB]
    have hv1 : vstackE [A.verts, B.verts] =
        .ok (A.constVerts ++ B.constVerts) := by
      unfold vstackE
      rw [hfl1]
      simp [hwV]
    have hsw2 := sameWidths_shift A.elems B.elems (A.constVerts.length : Int) hwE
    have hfl2 : [A.elems, B.elems.map (fun row =>
        row.map (fun e => e + (A.constVerts.length : Int)))].flatten =
        A.elems ++ B.elems.map (fun row =>
          row.map (fun e => e + (A.constVerts.length : Int))) := by
      simp
    have hv2 : vstackE [A.elems, B.elems.map (fun row =>
        row.map (fun e => e + (A.constVerts.length : Int)))] =
        .ok (A.elems ++ B.elems.map (fun row =>
          row.map (fun e => e + (A.constVerts.length : Int)))) := by
      unfold vstackE
      rw [hfl2]
      simp [hsw2]
    simp [concat, unpackArgs, hloop, bind, Except.bind, hcls, hv1, hv2]
  · intro row hrow e he
    rcases List.mem_map.mp hrow with ⟨row0, hrow0, rfl⟩
    rcases List.mem_map.mp he with ⟨e0, he0, rfl⟩
    have := hwfB.2.1 row0 hrow0 e0 he0
    omega
  · intro k hk1 hk2
    have hk3 : (k - (A.constVerts.length : Int)).toNat < B.constVerts.length := by
      omega
    rcases hcovB (k - (A.constVerts.length : Int)).toNat hk3 with ⟨row, hrow, he⟩
    refine ⟨row.map (fun e => e + (A.constVerts.length : Int)),
      List.mem_map_of_mem _ hrow, ?_⟩
    have hkval : (((k - (A.constVerts.length : Int)).toNat : Int)) +
        (A.constVerts.length : Int) = k := by omega
    rw [← hkval]
    exact List.mem_map_of_mem _ he
  · intro row hrow e he
    rcases List.mem_append.mp hrow with hA' | hB'
    · have := hwfA.2.1 row hA' e he
      omega
    · rcases List.mem_map.mp hB' with ⟨row0, hrow0, rfl⟩
      rcases List.mem_map.mp he with ⟨e0, he0, rfl⟩
      have := hwfB.2.1 row0 hrow0 e0 he0
      omega

/-- The right input of the C7 witness: two vertices, both referenced. -/
def exB7W : Pool :=
  { cls := .edges
    verts := [[5], [6]]
    constVerts := [[5], [6]]
    elems := [[0, 1]]
    vertexdata := []
    gen := 0 }

theorem concat_offsets_witness :
    (kindIsVertex .edges = false ∧
      subclassOf exA7.cls .edges = true ∧
      subclassOf exB7W.cls .edges = true ∧
      WfPool exA7 ∧ WfPool exB7W ∧
      (∀ i < exA7.constVerts.length, ∃ row ∈ exA7.elems, (i : Int) ∈ row) ∧
      (∀ i < exB7W.constVerts.length, ∃ row ∈ exB7W.elems, (i : Int) ∈ row) ∧
      exA7.elems.flatten ≠ [] ∧ exB7W.elems.flatten ≠ [] ∧
      sameWidths (exA7.constVerts ++ exB7W.constVerts) = true ∧
      sameWidths (exA7.elems ++ exB7W.elems) = true) ∧
    concat .edges [Val.pool exA7, Val.pool exB7W] =
      .ok { cls := .edges
            verts := exA7.constVerts ++ exB7W.constVerts
            constVerts := exA7.constVerts ++ exB7W.constVerts
            elems := exA7.elems ++ exB7W.elems.map (fun row =>
              row.map (fun e => e + (exA7.constVerts.length : Int)))
            vertexdata := []
            gen := 0 } :=
  ⟨⟨rfl, rfl, rfl, by decide, by decide, by decide, by decide,
      by decide, by decide, by decide, by decide⟩,
    (concat_offsets .edges exA7 exB7W rfl rfl rfl (by decide) (by decide)
      (by decide) (by decide) (by decide) (by decide) (by decide)
      (by decide)).1⟩

/-! ## `close_rows`: tolerance clustering (modelled from the spec)

`utils.arr.close_rows` is not part of `vertices.py`.  Modelled from the
spec: rows within the tolerance of each other are clustered into the
equivalence classes generated by the within-tolerance relation; the
representative of each cluster is the member with the smallest original
index; `ids` lists the representatives' original indices ascending, and
`inverse` maps every original row to the position of its representative in
the deduplicated array.  (The `intersection` marker of the returned
namedtuple flags rows whose cluster has at least two members.) -/

/-- Squared Euclidean distance of two rows. -/
def dist2 : Vec → Vec → ℚ
  | [], _ => 0
  | x :: xs, q =>
    match q with
    | [] => 0
    | y :: ys => (x - y) * (x - y) + dist2 xs ys

theorem dist2_comm : ∀ p q : Vec, dist2 p q = dist2 q p
  | x :: xs, y :: ys => by
    show (x - y) * (x - y) + dist2 xs ys = (y - x) * (y - x) + dist2 ys xs
    rw [dist2_comm xs ys]
    ring_nf
  | [], [] => rfl
  | [], _ :: _ => rfl
  | _ :: _, [] => rfl

theorem dist2_self : ∀ p : Vec, dist2 p p = 0
  | [] => rfl
  | x :: xs => by
    show (x - x) * (x - x) + dist2 xs xs = 0
    rw [dist2_self xs]
    ring

/-- The pairwise within-tolerance test between rows `i` and `j`. -/
def closeAdj (vs : List Vec) (tol : ℚ) (i j : Fin vs.length) : Bool :=
  decide (dist2 (vs.get i) (vs.get j) ≤ tol * tol)

theorem closeAdj_symm (vs : List Vec) (tol : ℚ) (i j : Fin vs.length) :
    closeAdj vs tol i j = closeAdj vs tol j i := by
  rw [closeAdj, closeAdj, dist2_comm]

theorem closeAdj_refl (vs : List Vec) (tol : ℚ) (i : Fin vs.length) :
    closeAdj vs tol i i = true := by
  rw [closeAdj, decide_eq_true_iff, dist2_self]
  exact mul_self_nonneg tol

/-- The within-tolerance graph on row indices. -/
def closeG (vs : List Vec) (tol : ℚ) : SimpleGraph (Fin vs.length) where
  Adj i j := i ≠ j ∧ closeAdj vs tol i j = true
  symm := by
    intro i j h
    exact ⟨h.1.symm, by rw [closeAdj_symm]; exact h.2⟩
  loopless := by
    intro i h
    exact h.1 rfl

/-- Bounded-depth reachability through the within-tolerance relation. -/
def reachb (vs : List Vec) (tol : ℚ) : Nat → Fin vs.length → Fin vs.length → Bool
  | 0, i, j => i == j
  | k + 1, i, j =>
    i == j || (List.finRange vs.length).any
      (fun m => closeAdj vs tol i m && reachb vs tol k m j)

theorem reachb_refl (vs : List Vec) (tol : ℚ) (k : Nat) (i : Fin vs.length) :
    reachb vs tol k i i = true := by
  cases k <;> simp [reachb]

theorem reachb_mono (vs : List Vec) (tol : ℚ) :
    ∀ (k : Nat) (i j : Fin vs.length), reachb vs tol k i j = true →
      reachb vs tol (k + 1) i j = true := by
  intro k
  induction k with
  | zero =>
    intro i j h
    rw [reachb] at h
    rw [reachb, Bool.or_eq_true]
    exact Or.inl h
  | succ k ih =>
    intro i j h
    rw [reachb, Bool.or_eq_true] at h
    rw [reachb, Bool.or_eq_true]
    rcases h with h | h
    · exact Or.inl h
    · refine Or.inr ?_
      rw [List.any_eq_true] at h ⊢
      rcases h with ⟨m, hm, hc⟩
      rw [Bool.and_eq_true] at hc
      exact ⟨m, hm, by rw [Bool.and_eq_true]; exact ⟨hc.1, ih m j hc.2⟩⟩

theorem reachb_le_mono (vs : List Vec) (tol : ℚ) {k k' : Nat} (h : k ≤ k') :
    ∀ {i j : Fin vs.length}, reachb vs tol k i j = true →
      reachb vs tol k' i j = true := by
  induction h with
  | refl => exact fun h => h
  | step _ ih => exact fun h => reachb_mono vs tol _ _ _ (ih h)

theorem reachb_to_reachable (vs : List Vec) (tol : ℚ) :
    ∀ (k : Nat) (i j : Fin vs.length), reachb vs tol k i j = true →
      (closeG vs tol).Reachable i j := by
  intro k
  induction k with
  | zero =>
    intro i j h
    rw [reachb, beq_iff_eq] at h
    exact h ▸ SimpleGraph.Reachable.refl i
  | succ k ih =>
    intro i j h
    rw [reachb, Bool.or_eq_true] at h
    rcases h with h | h
    · rw [beq_iff_eq] at h
      exact h ▸ SimpleGraph.Reachable.refl i
    · rw [List.any_eq_true] at h
      rcases h with ⟨m, _, hc⟩
      rw [Bool.and_eq_true] at hc
      have hr := ih m j hc.2
      by_cases him : i = m
      · exact him ▸ hr
      · have hadj : (closeG vs tol).Adj i m := ⟨him, hc.1⟩
        exact hadj.reachable.trans hr

theorem walk_to_reachb (vs : List Vec) (tol : ℚ) :
    ∀ {i j : Fin vs.length} (w : (closeG vs tol).Walk i j),
      reachb vs tol w.length i j = true := by
  intro i j w
  induction w with
  | nil => exact reachb_refl vs tol 0 _
  | cons hadj w ih =>
    rw [SimpleGraph.Walk.length_cons, reachb, Bool.or_eq_true]
    refine Or.inr ?_
    rw [List.any_eq_true]
    exact ⟨_, List.mem_finRange _, by rw [Bool.and_eq_true]; exact ⟨hadj.2, ih⟩⟩

/-- Computable reachability: depth `n` suffices, since every walk shortens
to a path of length below the vertex count. -/
def creach (vs : List Vec) (tol : ℚ) (i j : Fin vs.length) : Bool :=
  reachb vs tol vs.length i j

theorem creach_iff_reachable (vs : List Vec) (tol : ℚ) (i j : Fin vs.length) :
    creach vs tol i j = true ↔ (closeG vs tol).Reachable i j := by
  constructor
  · exact reachb_to_reachable vs tol vs.length i j
  · intro hr
    rcases hr with ⟨w⟩
    have hp := w.bypass_isPath
    have hlt : w.bypass.length < vs.length := by
      have := hp.length_lt
      simpa using this
    exact reachb_le_mono vs tol (Nat.le_of_lt hlt)
      (walk_to_reachb vs tol w.bypass)

theorem creach_refl (vs : List Vec) (tol : ℚ) (i : Fin vs.length) :
    creach vs tol i i = true :=
  reachb_refl vs tol vs.length i

theorem creach_symm (vs : List Vec) (tol : ℚ) {i j : Fin vs.length}
    (h : creach vs tol i j = true) : creach vs tol j i = true := by
  rw [creach_iff_reachable] at h ⊢
  exact h.symm

theorem creach_trans (vs : List Vec) (tol : ℚ) {i j k : Fin vs.length}
    (h1 : creach vs tol i j = true) (h2 : creach vs tol j k = true) :
    creach vs tol i k = true := by
  rw [creach_iff_reachable] at h1 h2 ⊢
  exact h1.trans h2

/-- The cluster of row `i`: all rows reachable through the within-tolerance
relation, in ascending index order. -/
def comp (vs : List Vec) (tol : ℚ) (i : Fin vs.length) : List (Fin vs.length) :=
  (List.finRange vs.length).filter (fun j => creach vs tol i j)

/-- The representative of `i`'s cluster: its smallest member (the head of
the ascending cluster list) — the spec's smallest-original-index
tie-break. -/
def rep (vs : List Vec) (tol : ℚ) (i : Fin vs.length) : Fin vs.length :=
  (comp vs tol i).head?.getD i

theorem mem_comp_self (vs : List Vec) (tol : ℚ) (i : Fin vs.length) :
    i ∈ comp vs tol i := by
  rw [comp, List.mem_filter]
  exact ⟨List.mem_finRange i, creach_refl vs tol i⟩

theorem comp_eq_of_creach (vs : List Vec) (tol : ℚ) {i j : Fin vs.length}
    (h : creach vs tol i j = true) : comp vs tol i = comp vs tol j := by
  rw [comp, comp]
  apply List.filter_congr
  intro x _
  rw [Bool.eq_iff_iff]
  constructor
  · exact fun hx => creach_trans vs tol (creach_symm vs tol h) hx
  · exact fun hx => creach_trans vs tol h hx

theorem rep_mem_comp (vs : List Vec) (tol : ℚ) (i : Fin vs.length) :
    rep vs tol i ∈ comp vs tol i := by
  rw [rep]
  cases hh : (comp vs tol i).head? with
  | none =>
    exact absurd (List.head?_eq_none_iff.mp hh)
      (List.ne_nil_of_mem (mem_comp_self vs tol i))
  | some a =>
    rw [Option.getD_some]
    exact List.mem_of_mem_head? hh

theorem creach_rep (vs : List Vec) (tol : ℚ) (i : Fin vs.length) :
    creach vs tol i (rep vs tol i) = true := by
  have := rep_mem_comp vs tol i
  rw [comp, List.mem_filter] at this
  exact this.2

theorem rep_eq_of_creach (vs : List Vec) (tol : ℚ) {i j : Fin vs.length}
    (h : creach vs tol i j = true) : rep vs tol i = rep vs tol j := by
  rw [rep, rep, comp_eq_of_creach vs tol h]
  cases hh : (comp vs tol j).head? with
  | none =>
    exact absurd (List.head?_eq_none_iff.mp hh)
      (List.ne_nil_of_mem (mem_comp_self vs tol j))
  | some a => rfl

theorem rep_idem (vs : List Vec) (tol : ℚ) (i : Fin vs.length) :
    rep vs tol (rep vs tol i) = rep vs tol i :=
  (rep_eq_of_creach vs tol (creach_rep vs tol i)).symm

/-- The ascending list of representative indices. -/
def idsF (vs : List Vec) (tol : ℚ) : List (Fin vs.length) :=
  (List.finRange vs.length).filter (fun i => decide (rep vs tol i = i))

theorem mem_idsF_iff (vs : List Vec) (tol : ℚ) (i : Fin vs.length) :
    i ∈ idsF vs tol ↔ rep vs tol i = i := by
  rw [idsF, List.mem_filter]
  simp [List.mem_finRange]

theorem idsF_nodup (vs : List Vec) (tol : ℚ) : (idsF vs tol).Nodup :=
  (List.nodup_finRange vs.length).filter _

theorem rep_mem_idsF (vs : List Vec) (tol : ℚ) (i : Fin vs.length) :
    rep vs tol i ∈ idsF vs tol :=
  (mem_idsF_iff vs tol _).mpr (rep_idem vs tol i)

/-- The result of `close_rows`: representative rows, their original indices,
the original-row → representative-position map, and the merged-row marker. -/
structure CloseRows where
  values : List Vec
  ids : List Nat
  inverse : List Int
  intersection : List Bool
  deriving DecidableEq

/-- Modelled from the spec: `utils.arr.close_rows(arr, tolerance)`. -/
def closeRows (vs : List Vec) (tol : ℚ) : CloseRows :=
  { values := (idsF vs tol).map (fun i => vs.get i)
    ids := (idsF vs tol).map (fun i => i.val)
    inverse := (List.finRange vs.length).map
      (fun i => (List.indexOf (rep vs tol i) (idsF vs tol) : Int))
    intersection := (List.finRange vs.length).map
      (fun i => decide (2 ≤ (comp vs tol i).length)) }

/-- `Vertices.unique_vertices(tolerance)`: `close_rows` of the read-only
view, at the given tolerance or the settings default when `None`.  (The
settings default `settings.TOLERANCE` is passed in as `defaultTol`.) -/
def uniqueVertices (defaultTol : ℚ) (P : Pool) (tolerance : Option ℚ) :
    CloseRows :=
  closeRows P.constVerts (tolerance.getD defaultTol)

/-- `Vertices.merge_vertices(tolerance)` as written in the source: it calls
`self.unique_vertices()` — NOT forwarding its `tolerance` parameter, so the
clustering always runs at the settings default — and then
`update_vertices(mask=ids, inverse=inverse)`. -/
def mergeVertices (defaultTol : ℚ) (P : Pool) (tolerance : Option ℚ) :
    Except GErr Pool :=
  let u := uniqueVertices defaultTol P none
  updateVertices P (.ints (u.ids.map (fun (i : Nat) => (i : Int))))
    (some u.inverse)

/-! ## General facts about the clustering -/

theorem filter_decide_eq_of_nodup {α : Type _} [DecidableEq α] :
    ∀ {l : List α}, l.Nodup → ∀ {a : α}, a ∈ l →
      l.filter (fun x => decide (a = x)) = [a] := by
  intro l
  induction l with
  | nil =>
    intro _ a ha
    simp at ha
  | cons b tl ih =>
    intro hnd a ha
    rcases List.mem_cons.mp ha with rfl | ha'
    · rw [List.filter_cons_of_pos (by simp)]
      have htl : tl.filter (fun x => decide (a = x)) = [] := by
        rw [List.filter_eq_nil_iff]
        intro x hx
        simp only [decide_eq_true_iff]
        intro h
        subst h
        exact (List.nodup_cons.mp hnd).1 hx
      rw [htl]
    · have hne : a ≠ b := by
        intro h
        subst h
        exact (List.nodup_cons.mp hnd).1 ha'
      rw [List.filter_cons_of_neg (by simpa using hne)]
      exact ih (List.nodup_cons.mp hnd).2 ha'

theorem indexOf_finRange {n : Nat} (i : Fin n) :
    List.indexOf i (List.finRange n) = i.val := by
  have hmem : i ∈ List.finRange n := List.mem_finRange i
  have hlt : List.indexOf i (List.finRange n) < (List.finRange n).length :=
    List.indexOf_lt_length.mpr hmem
  have h1 := List.indexOf_get hlt
  have h2 : (List.finRange n).get ⟨i.val, by simpa using i.isLt⟩ = i := by
    rw [List.get_finRange]
  have := (List.Nodup.get_inj_iff (List.nodup_finRange n)).mp (h1.trans h2.symm)
  exact congrArg Fin.val this

theorem reachable_eq_of_no_adj {V : Type _} {G : SimpleGraph V}
    (hno : ∀ a b : V, ¬ G.Adj a b) {u v : V} (h : G.Reachable u v) : u = v := by
  rcases h with ⟨w⟩
  cases w with
  | nil => rfl
  | cons h _ => exact absurd h (hno _ _)

theorem creach_of_adj (vs : List Vec) (tol : ℚ) {i j : Fin vs.length}
    (h : closeAdj vs tol i j = true) : creach vs tol i j = true := by
  by_cases hij : i = j
  · exact hij ▸ creach_refl vs tol i
  · rw [creach_iff_reachable]
    have hadj : (closeG vs tol).Adj i j := ⟨hij, h⟩
    exact hadj.reachable

/-- When no two distinct rows are within tolerance, clustering is the
identity: every row is its own representative, `ids` enumerates all rows and
`inverse` is the identity map. -/
theorem closeRows_discrete (vs : List Vec) (tol : ℚ)
    (h : ∀ i j : Fin vs.length, i ≠ j → closeAdj vs tol i j = false) :
    idsF vs tol = List.finRange vs.length ∧
    (closeRows vs tol).ids = List.range vs.length ∧
    (closeRows vs tol).inverse =
      (List.range vs.length).map (fun (k : Nat) => (k : Int)) ∧
    (closeRows vs tol).values = vs := by
  have hno : ∀ a b : Fin vs.length, ¬ (closeG vs tol).Adj a b := by
    intro a b hadj
    have h2 : closeAdj vs tol a b = true := hadj.2
    rw [h a b hadj.1] at h2
    exact Bool.false_ne_true h2
  have hcr : ∀ i j : Fin vs.length, creach vs tol i j = true ↔ i = j := by
    intro i j
    constructor
    · intro hc
      exact reachable_eq_of_no_adj hno
        ((creach_iff_reachable vs tol i j).mp hc)
    · intro hij
      exact hij ▸ creach_refl vs tol i
  have hrep : ∀ i, rep vs tol i = i := by
    intro i
    have hcompi : comp vs tol i = [i] := by
      rw [comp]
      rw [List.filter_congr (fun x _ => ?_)]
      · exact filter_decide_eq_of_nodup (List.nodup_finRange vs.length)
          (List.mem_finRange i)
      · rw [Bool.eq_iff_iff, hcr, decide_eq_true_iff]
    rw [rep, hcompi]
    rfl
  have hids : idsF vs tol = List.finRange vs.length := by
    rw [idsF]
    apply List.filter_eq_self.mpr
    intro i _
    simp [hrep i]
  refine ⟨hids, ?_, ?_, ?_⟩
  · rw [closeRows]
    show (idsF vs tol).map Fin.val = _
    rw [hids, List.map_coe_finRange]
  · rw [closeRows]
    show (List.finRange vs.length).map
      (fun i => (List.indexOf (rep vs tol i) (idsF vs tol) : Int)) = _
    have : ∀ i : Fin vs.length,
        (List.indexOf (rep vs tol i) (idsF vs tol) : Int) = ((i.val : Nat) : Int) := by
      intro i
      rw [hrep i, hids, indexOf_finRange]
    rw [List.map_congr_left (fun i _ => this i), ← List.map_coe_finRange,
      List.map_map]
    rfl
  · rw [closeRows]
    show (idsF vs tol).map (fun i => vs.get i) = vs
    rw [hids]
    exact List.finRange_map_get vs

/-! ## C1: `merge_vertices` ignores its tolerance argument -/

/-- The positions of the C1 failing input: the two rows are within tolerance
3 of each other but not within the settings default 1. -/
def exVs1 : List Vec := [[0], [2]]

/-- The pool of the C1 failing input. -/
def exPoolC1 : Pool :=
  { cls := .vertices
    verts := exVs1
    constVerts := exVs1
    elems := []
    vertexdata := []
    gen := 0 }

theorem exVs1_discrete_default :
    ∀ i j : Fin exVs1.length, i ≠ j → closeAdj exVs1 1 i j = false := by
  intro i j hne
  fin_cases i <;> fin_cases j <;>
    first
    | exact absurd rfl hne
    | · simp only [closeAdj, exVs1, List.get_cons_zero, List.get_cons_succ,
          decide_eq_false_iff_not]
        norm_num [dist2]

/-- Index 0 of the C1 example. -/
def e0 : Fin exVs1.length := ⟨0, by decide⟩

/-- Index 1 of the C1 example. -/
def e1 : Fin exVs1.length := ⟨1, by decide⟩

theorem exVs1_close_at_3 : closeAdj exVs1 3 e0 e1 = true := by
  simp only [closeAdj, exVs1, e0, e1, List.get_cons_zero, List.get_cons_succ,
    decide_eq_true_iff]
  norm_num [dist2]

theorem exVs1_finRange : List.finRange exVs1.length = [e0, e1] := by decide

theorem exVs1_rep3_e0 : rep exVs1 3 e0 = e0 := by
  have h00 : creach exVs1 3 e0 e0 = true := creach_refl exVs1 3 e0
  have h01 : creach exVs1 3 e0 e1 = true := creach_of_adj exVs1 3 exVs1_close_at_3
  have hcomp : comp exVs1 3 e0 = [e0, e1] := by
    rw [comp, exVs1_finRange]
    rw [List.filter_cons_of_pos (by exact h00),
      List.filter_cons_of_pos (by exact h01)]
    rfl
  rw [rep, hcomp]
  rfl

theorem exVs1_rep3_e1 : rep exVs1 3 e1 = e0 := by
  have h10 : creach exVs1 3 e1 e0 :=
    creach_symm exVs1 3 (creach_of_adj exVs1 3 exVs1_close_at_3)
  have h11 : creach exVs1 3 e1 e1 = true := creach_refl exVs1 3 e1
  have hcomp : comp exVs1 3 e1 = [e0, e1] := by
    rw [comp, exVs1_finRange]
    rw [List.filter_cons_of_pos (by exact h10),
      List.filter_cons_of_pos (by exact h11)]
    rfl
  rw [rep, hcomp]
  rfl

theorem exVs1_idsF3 : idsF exVs1 3 = [e0] := by
  rw [idsF, exVs1_finRange]
  rw [List.filter_cons_of_pos (by rw [exVs1_rep3_e0]; exact decide_eq_true rfl)]
  rw [List.filter_cons_of_neg (by rw [exVs1_rep3_e1]; decide)]
  rfl

theorem exVs1_closeRows3_ids : (closeRows exVs1 3).ids = [0] := by
  show (idsF exVs1 3).map Fin.val = _
  rw [exVs1_idsF3]
  rfl

theorem exVs1_closeRows3_inverse : (closeRows exVs1 3).inverse = [0, 0] := by
  show (List.finRange exVs1.length).map
    (fun i => (List.indexOf (rep exVs1 3 i) (idsF exVs1 3) : Int)) = _
  rw [exVs1_finRange]
  simp only [List.map_cons, List.map_nil]
  rw [exVs1_rep3_e0, exVs1_rep3_e1, exVs1_idsF3]
  decide

/-- C1 (evaluation of the code at the failing input): with settings default
tolerance 1 and rows at distance 2, `merge_vertices(3)` keeps BOTH vertices,
because the method never forwards its `tolerance` parameter to
`unique_vertices` — the clustering runs at the default tolerance — even
though `unique_vertices(3)`, which the claim says `merge_vertices(3)`
computes, has a single representative `[0]` with inverse map `[0, 0]`.
The last conjunct shows the result does not depend on the tolerance
argument at all. -/
theorem mergeVertices_ignores_tolerance :
    mergeVertices 1 exPoolC1 (some 3) =
      .ok { cls := .vertices
            verts := exVs1
            constVerts := exVs1
            elems := []
            vertexdata := []
            gen := 1 } ∧
    (uniqueVertices 1 exPoolC1 (some 3)).ids = [0] ∧
    (uniqueVertices 1 exPoolC1 (some 3)).inverse = [0, 0] ∧
    (∀ t : Option ℚ, mergeVertices 1 exPoolC1 t =
      mergeVertices 1 exPoolC1 none) := by
  obtain ⟨-, hids, hinv, -⟩ := closeRows_discrete exVs1 1 exVs1_discrete_default
  refine ⟨?_, ?_, ?_, fun _ => rfl⟩
  · show updateVertices exPoolC1
      (.ints ((closeRows exVs1 1).ids.map (fun (i : Nat) => (i : Int))))
      (some (closeRows exVs1 1).inverse) = _
    rw [hids, hinv]
    decide
  · show (closeRows exVs1 3).ids = [0]
    exact exVs1_closeRows3_ids
  · show (closeRows exVs1 3).inverse = [0, 0]
    exact exVs1_closeRows3_inverse

/-! ## Evaluation of `update_vertices` for integer masks -/

theorem selectInts_ok {α : Type _} [Inhabited α] {rows : List α} {l : List Int}
    (hl : ∀ e ∈ l, 0 ≤ e ∧ e < (rows.length : Int)) :
    selectInts rows l = .ok (l.map (fun e => rows.getD e.toNat default)) := by
  apply mapE_ok
  intro e he
  have h0 := (hl e he).1
  have h1 : e.toNat < rows.length := by
    have := (hl e he).2
    omega
  exact npIndex_ok default h0 h1

/-- Full evaluation of `update_vertices` with a nonempty integer mask and a
caller-supplied inverse — the call pattern of `merge_vertices`.  The
attached data survives (reindexed) exactly when the integer mask has the
old length; otherwise the setter's revalidation drops it before the masking
step. -/
theorem uv_ints_supplied_eval (P : Pool) (l : List Int) (inv : List Int)
    (hne : l ≠ [])
    (hl : ∀ e ∈ l, 0 ≤ e ∧ e < (P.constVerts.length : Int))
    (he : ∀ row ∈ P.elems, ∀ e ∈ row, 0 ≤ e ∧ e < (P.constVerts.length : Int))
    (hinvlen : inv.length = P.constVerts.length)
    (hd : ∀ kv ∈ P.vertexdata, (kv.2 : List ℚ).length = P.constVerts.length) :
    updateVertices P (.ints l) (some inv) =
      .ok { cls := P.cls
            verts := l.map (fun e => P.constVerts.getD e.toNat default)
            constVerts := l.map (fun e => P.constVerts.getD e.toNat default)
            elems := if kindIsVertex P.cls then P.elems
              else P.elems.map (fun row =>
                row.map (fun e => inv.getD e.toNat (-11)))
            vertexdata := if l.length = P.constVerts.length
              then P.vertexdata.map (fun kv =>
                (kv.1, l.map (fun e => kv.2.getD e.toNat default)))
              else []
            gen := P.gen + 1 } := by
  have hfast : maskFast (.ints l) = false := by
    simp [maskFast, hne]
  have hsel := selectInts_ok hl
  have hre := remapElems_ok inv he hinvlen
  have hlen_new :
      (l.map (fun e => P.constVerts.getD e.toNat default)).length = l.length :=
    List.length_map _ _
  by_cases hll : l.length = P.constVerts.length
  · have hfilter : P.vertexdata.filter (fun kv => decide (kv.2.length =
        (l.map (fun e => P.constVerts.getD e.toNat default)).length))
          = P.vertexdata := by
      apply List.filter_eq_self.mpr
      intro kv hkv
      simp only [decide_eq_true_iff, hlen_new, hd kv hkv, hll]
    have hdata : mapE (fun kv => do
        let v ← selectMask kv.2 (.ints l)
        Except.ok ((kv.1 : String), v)) P.vertexdata =
          .ok (P.vertexdata.map (fun kv =>
            (kv.1, l.map (fun e => kv.2.getD e.toNat default)))) := by
      apply mapE_ok
      intro kv hkv
      have hsel2 : selectInts kv.2 l =
          .ok (l.map (fun e => kv.2.getD e.toNat default)) := by
        apply selectInts_ok
        rw [hd kv hkv]
        exact hl
      simp [selectMask, hsel2, bind, Except.bind]
    simp only [List.length_map, hll] at hfilter
    simp only [selectMask, bind, Except.bind] at hdata
    by_cases hkv : kindIsVertex P.cls = true
    · unfold updateVertices
      rw [if_neg (by simp [hfast])]
      simp [hkv, hll, hre, hsel, hfilter, hdata, setVerts, setElems,
        selectMask, bind, Except.bind]
    · unfold updateVertices
      rw [if_neg (by simp [hfast])]
      simp [hkv, hll, hre, hsel, hfilter, hdata, setVerts, setElems,
        selectMask, bind, Except.bind]
  · have hfilter : P.vertexdata.filter (fun kv => decide (kv.2.length =
        (l.map (fun e => P.constVerts.getD e.toNat default)).length)) = [] := by
      rw [List.filter_eq_nil_iff]
      intro kv hkv
      simp only [decide_eq_true_iff, hlen_new, hd kv hkv]
      exact fun h => hll h.symm
    simp only [List.length_map] at hfilter
    by_cases hkv : kindIsVertex P.cls = true
    · unfold updateVertices
      rw [if_neg (by simp [hfast])]
      simp [hkv, hll, hre, hsel, hfilter, setVerts, setElems,
        selectMask, bind, Except.bind, mapE]
    · unfold updateVertices
      rw [if_neg (by simp [hfast])]
      simp [hkv, hll, hre, hsel, hfilter, setVerts, setElems,
        selectMask, bind, Except.bind, mapE]

/-! ## Properties of the `close_rows` output -/

theorem closeRows_ids_valid (vs : List Vec) (tol : ℚ) :
    ∀ e ∈ (closeRows vs tol).ids.map (fun (i : Nat) => (i : Int)),
      0 ≤ e ∧ e < (vs.length : Int) := by
  intro e he
  rcases List.mem_map.mp he with ⟨k, hk, rfl⟩
  have hk' : k ∈ (idsF vs tol).map Fin.val := hk
  rcases List.mem_map.mp hk' with ⟨i, _, rfl⟩
  exact ⟨Int.natCast_nonneg _, by exact_mod_cast i.isLt⟩

theorem closeRows_ids_ne_nil (vs : List Vec) (tol : ℚ) (hn : vs ≠ []) :
    (closeRows vs tol).ids ≠ [] := by
  have h0 : 0 < vs.length := List.length_pos.mpr hn
  have hmem := rep_mem_idsF vs tol ⟨0, h0⟩
  intro hc
  have hc' : (idsF vs tol).map Fin.val = [] := hc
  rw [List.map_eq_nil.mp hc'] at hmem
  exact List.not_mem_nil _ hmem

theorem closeRows_ids_length (vs : List Vec) (tol : ℚ) :
    (closeRows vs tol).ids.length = (idsF vs tol).length :=
  List.length_map _ _

theorem closeRows_inverse_length (vs : List Vec) (tol : ℚ) :
    (closeRows vs tol).inverse.length = vs.length := by
  show ((List.finRange vs.length).map _).length = _
  rw [List.length_map, List.length_finRange]

theorem closeRows_inverse_valid (vs : List Vec) (tol : ℚ) :
    ∀ x ∈ (closeRows vs tol).inverse,
      0 ≤ x ∧ x < ((closeRows vs tol).ids.length : Int) := by
  intro x hx
  rcases List.mem_map.mp hx with ⟨i, _, rfl⟩
  refine ⟨Int.natCast_nonneg _, ?_⟩
  have hmem := rep_mem_idsF vs tol i
  have hlt := List.indexOf_lt_length.mpr hmem
  rw [closeRows_ids_length]
  exact_mod_cast hlt

/-- Selecting the representative ids out of the original rows produces the
representative rows. -/
theorem ids_map_getD (vs : List Vec) (tol : ℚ) :
    ((closeRows vs tol).ids.map (fun (i : Nat) => (i : Int))).map
        (fun e => vs.getD e.toNat default) =
      (idsF vs tol).map (fun i => vs.get i) := by
  show (((idsF vs tol).map Fin.val).map _).map _ = _
  rw [List.map_map, List.map_map]
  apply List.map_congr_left
  intro i _
  show vs.getD ((i.val : Int)).toNat default = vs.get i
  rw [Int.toNat_natCast, List.getD_eq_get _ _ i.isLt]

theorem range_map_getD {α : Type _} [Inhabited α] :
    ∀ (rows : List α),
      (List.range rows.length).map (fun k => rows.getD k default) = rows
  | [] => rfl
  | r :: rs => by
    rw [List.length_cons, List.range_succ_eq_map, List.map_cons, List.map_map]
    congr 1
    rw [show ((fun k => (r :: rs).getD k default) ∘ Nat.succ) =
      (fun k => rs.getD k default) from rfl]
    exact range_map_getD rs

/-- Selecting every index in order is the identity. -/
theorem range_int_select {α : Type _} [Inhabited α] (rows : List α) :
    ((List.range rows.length).map (fun (k : Nat) => (k : Int))).map
      (fun e => rows.getD e.toNat default) = rows := by
  rw [List.map_map]
  rw [show ((fun (e : Int) => rows.getD e.toNat default) ∘
      (fun (k : Nat) => (k : Int))) = (fun k => rows.getD k default) from ?_]
  · exact range_map_getD rows
  · funext k
    show rows.getD ((k : Int)).toNat default = rows.getD k default
    rw [Int.toNat_natCast]

/-- After one merge, no two distinct representative rows are within
tolerance: clustering at the same tolerance is transitive (equivalence
classes), so two representatives that were close would have shared a
cluster. -/
theorem closeAdj_merged_false (vs : List Vec) (tol : ℚ) :
    ∀ i j : Fin ((idsF vs tol).map (fun i => vs.get i)).length, i ≠ j →
      closeAdj ((idsF vs tol).map (fun i => vs.get i)) tol i j = false := by
  intro i j hne
  have hlen : ((idsF vs tol).map (fun i => vs.get i)).length =
      (idsF vs tol).length := List.length_map _ _
  by_contra hc
  have hc' : closeAdj ((idsF vs tol).map (fun i => vs.get i)) tol i j = true := by
    revert hc
    cases closeAdj ((idsF vs tol).map (fun i => vs.get i)) tol i j <;> simp
  have hia : i.val < (idsF vs tol).length := by
    have := i.isLt
    omega
  have hja : j.val < (idsF vs tol).length := by
    have := j.isLt
    omega
  have hga : ((idsF vs tol).map (fun i => vs.get i)).get i =
      vs.get ((idsF vs tol).get ⟨i.val, hia⟩) := by
    simp [List.get_eq_getElem, List.getElem_map]
  have hgb : ((idsF vs tol).map (fun i => vs.get i)).get j =
      vs.get ((idsF vs tol).get ⟨j.val, hja⟩) := by
    simp [List.get_eq_getElem, List.getElem_map]
  have hadj : closeAdj vs tol ((idsF vs tol).get ⟨i.val, hia⟩)
      ((idsF vs tol).get ⟨j.val, hja⟩) = true := by
    rw [closeAdj] at hc' ⊢
    rw [hga, hgb] at hc'
    exact hc'
  have hab : (idsF vs tol).get ⟨i.val, hia⟩ ≠ (idsF vs tol).get ⟨j.val, hja⟩ := by
    intro hend
    have hmk := (List.Nodup.get_inj_iff (idsF_nodup vs tol)).mp hend
    have hv := congrArg Fin.val hmk
    exact hne (Fin.ext hv)
  have hcr : creach vs tol ((idsF vs tol).get ⟨i.val, hia⟩)
      ((idsF vs tol).get ⟨j.val, hja⟩) = true := creach_of_adj vs tol hadj
  have hrepeq := rep_eq_of_creach vs tol hcr
  have hra : rep vs tol ((idsF vs tol).get ⟨i.val, hia⟩) =
      (idsF vs tol).get ⟨i.val, hia⟩ :=
    (mem_idsF_iff vs tol _).mp (List.get_mem _ _ _)
  have hrb : rep vs tol ((idsF vs tol).get ⟨j.val, hja⟩) =
      (idsF vs tol).get ⟨j.val, hja⟩ :=
    (mem_idsF_iff vs tol _).mp (List.get_mem _ _ _)
  rw [hra, hrb] at hrepeq
  exact hab hrepeq

/-! ## C9: a second merge reduces the vertex count no further -/

/-- A merge whose clustering is discrete (identity ids and inverse) keeps
the vertex count. -/
theorem merge_second_of_discrete (defaultTol : ℚ) (tol : Option ℚ) (P₁ : Pool)
    (hcv : P₁.verts = P₁.constVerts)
    (hids2 : (closeRows P₁.constVerts defaultTol).ids =
      List.range P₁.constVerts.length)
    (hinv2 : (closeRows P₁.constVerts defaultTol).inverse =
      (List.range P₁.constVerts.length).map (fun (k : Nat) => (k : Int)))
    (hn' : 0 < P₁.constVerts.length)
    (he₁ : ∀ row ∈ P₁.elems, ∀ e ∈ row, 0 ≤ e ∧ e < (P₁.constVerts.length : Int))
    (hd₁ : ∀ kv ∈ P₁.vertexdata, (kv.2 : List ℚ).length = P₁.constVerts.length) :
    ∃ P₂, mergeVertices defaultTol P₁ tol = .ok P₂ ∧
      P₂.verts.length = P₁.verts.length := by
  have hne₂ : (List.range P₁.constVerts.length).map
      (fun (k : Nat) => (k : Int)) ≠ [] := by
    intro hc
    have h := congrArg List.length hc
    rw [List.length_map, List.length_range, List.length_nil] at h
    omega
  have hl₂ : ∀ e ∈ (List.range P₁.constVerts.length).map
      (fun (k : Nat) => (k : Int)), 0 ≤ e ∧ e < (P₁.constVerts.length : Int) := by
    intro e hee
    rcases List.mem_map.mp hee with ⟨k, hk, rfl⟩
    have := List.mem_range.mp hk
    exact ⟨Int.natCast_nonneg _, by exact_mod_cast this⟩
  have hlen₂ : ((List.range P₁.constVerts.length).map
      (fun (k : Nat) => (k : Int))).length = P₁.constVerts.length := by
    rw [List.length_map, List.length_range]
  have heval := uv_ints_supplied_eval P₁
    ((List.range P₁.constVerts.length).map (fun (k : Nat) => (k : Int)))
    ((List.range P₁.constVerts.length).map (fun (k : Nat) => (k : Int)))
    hne₂ hl₂ he₁ hlen₂ hd₁
  have h2 : mergeVertices defaultTol P₁ tol = .ok
      { cls := P₁.cls
        verts := ((List.range P₁.constVerts.length).map
          (fun (k : Nat) => (k : Int))).map
            (fun e => P₁.constVerts.getD e.toNat default)
        constVerts := ((List.range P₁.constVerts.length).map
          (fun (k : Nat) => (k : Int))).map
            (fun e => P₁.constVerts.getD e.toNat default)
        elems := if kindIsVertex P₁.cls then P₁.elems
          else P₁.elems.map (fun row => row.map (fun e =>
            ((List.range P₁.constVerts.length).map
              (fun (k : Nat) => (k : Int))).getD e.toNat (-11)))
        vertexdata := if ((List.range P₁.constVerts.length).map
            (fun (k : Nat) => (k : Int))).length = P₁.constVerts.length
          then P₁.vertexdata.map (fun kv =>
            (kv.1, ((List.range P₁.constVerts.length).map
              (fun (k : Nat) => (k : Int))).map
                (fun e => kv.2.getD e.toNat default)))
          else []
        gen := P₁.gen + 1 } := by
    show updateVertices P₁
      (.ints ((closeRows P₁.constVerts defaultTol).ids.map
        (fun (i : Nat) => (i : Int))))
      (some (closeRows P₁.constVerts defaultTol).inverse) = _
    rw [hids2, hinv2]
    exact heval
  refine ⟨_, h2, ?_⟩
  show (((List.range P₁.constVerts.length).map
    (fun (k : Nat) => (k : Int))).map
      (fun e => P₁.constVerts.getD e.toNat default)).length = P₁.verts.length
  rw [range_int_select P₁.constVerts, hcv]

/-- C9: for every well-formed pool and every tolerance argument,
`merge_vertices(tol).merge_vertices(tol)` produces no further reduction in
vertex count: the second call leaves the row count unchanged.  (Both calls
cluster at the settings default — the tolerance argument is ignored, see
C1 — and clustering takes equivalence classes of the within-tolerance
relation, so after one merge no two surviving representatives are within
tolerance of each other and every cluster of the second pass is a
singleton.) -/
theorem mergeVertices_idempotent_count (defaultTol : ℚ) (P : Pool)
    (tol : Option ℚ) (hwf : WfPool P) :
    ∃ P₁ P₂, mergeVertices defaultTol P tol = .ok P₁ ∧
      mergeVertices defaultTol P₁ tol = .ok P₂ ∧
      P₂.verts.length = P₁.verts.length := by
  obtain ⟨hv, he, hd, hvx⟩ := hwf
  by_cases hnil : P.constVerts = []
  · -- empty pool: the integer mask is empty, and both calls take the
    -- no-op fast path
    have hlen0 : P.constVerts.length = 0 := by rw [hnil]; rfl
    have hids : (closeRows P.constVerts defaultTol).ids = [] := by
      apply List.eq_nil_of_length_eq_zero
      have h1 := closeRows_ids_length P.constVerts defaultTol
      have h2 : (idsF P.constVerts defaultTol).length ≤
          (List.finRange P.constVerts.length).length :=
        List.length_filter_le _ _
      rw [List.length_finRange] at h2
      omega
    have h1 : mergeVertices defaultTol P tol = .ok P := by
      show updateVertices P
        (.ints ((closeRows P.constVerts defaultTol).ids.map
          (fun (i : Nat) => (i : Int))))
        (some (closeRows P.constVerts defaultTol).inverse) = _
      rw [hids]
      rfl
    exact ⟨P, P, h1, h1, rfl⟩
  · -- nonempty pool
    have hne0 : (closeRows P.constVerts defaultTol).ids ≠ [] :=
      closeRows_ids_ne_nil _ _ hnil
    have hne1 : (closeRows P.constVerts defaultTol).ids.map
        (fun (i : Nat) => (i : Int)) ≠ [] := by
      intro hc
      exact hne0 (List.map_eq_nil.mp hc)
    have heval1 := uv_ints_supplied_eval P
      ((closeRows P.constVerts defaultTol).ids.map (fun (i : Nat) => (i : Int)))
      (closeRows P.constVerts defaultTol).inverse
      hne1 (closeRows_ids_valid _ _) he (closeRows_inverse_length _ _) hd
    have hV := ids_map_getD P.constVerts defaultTol
    rw [hV] at heval1
    have h1 : mergeVertices defaultTol P tol = .ok
        { cls := P.cls
          verts := (idsF P.constVerts defaultTol).map
            (fun i => P.constVerts.get i)
          constVerts := (idsF P.constVerts defaultTol).map
            (fun i => P.constVerts.get i)
          elems := if kindIsVertex P.cls then P.elems
            else P.elems.map (fun row => row.map (fun e =>
              (closeRows P.constVerts defaultTol).inverse.getD e.toNat (-11)))
          vertexdata := if ((closeRows P.constVerts defaultTol).ids.map
              (fun (i : Nat) => (i : Int))).length = P.constVerts.length
            then P.vertexdata.map (fun kv =>
              (kv.1, ((closeRows P.constVerts defaultTol).ids.map
                (fun (i : Nat) => (i : Int))).map
                  (fun e => kv.2.getD e.toNat default)))
            else []
          gen := P.gen + 1 } := by
      show updateVertices P
        (.ints ((closeRows P.constVerts defaultTol).ids.map
          (fun (i : Nat) => (i : Int))))
        (some (closeRows P.constVerts defaultTol).inverse) = _
      exact heval1
    -- lengths of the merged data
    have hlen_chain : (closeRows P.constVerts defaultTol).ids.length =
        ((idsF P.constVerts defaultTol).map
          (fun i => P.constVerts.get i)).length := by
      rw [closeRows_ids_length, List.length_map]
    have hn' : 0 < ((idsF P.constVerts defaultTol).map
        (fun i => P.constVerts.get i)).length := by
      rw [← hlen_chain]
      exact List.length_pos.mpr hne0
    -- the second clustering is discrete
    obtain ⟨-, hids2, hinv2, -⟩ :=
      closeRows_discrete ((idsF P.constVerts defaultTol).map
        (fun i => P.constVerts.get i)) defaultTol
        (closeAdj_merged_false P.constVerts defaultTol)
    -- well-formedness facts about the merged pool
    have he₁ : ∀ row ∈ (if kindIsVertex P.cls then P.elems
        else P.elems.map (fun row => row.map (fun e =>
          (closeRows P.constVerts defaultTol).inverse.getD e.toNat (-11)))),
        ∀ e ∈ row, 0 ≤ e ∧ e < (((idsF P.constVerts defaultTol).map
          (fun i => P.constVerts.get i)).length : Int) := by
      by_cases hk : kindIsVertex P.cls = true
      · rw [if_pos hk, hvx hk]
        intro row hrow
        simp at hrow
      · rw [if_neg hk]
        intro row' hrow' x hx
        rcases List.mem_map.mp hrow' with ⟨row, hrow, rfl⟩
        rcases List.mem_map.mp hx with ⟨e, hee, rfl⟩
        have hlt1 : e.toNat <
            (closeRows P.constVerts defaultTol).inverse.length := by
          rw [closeRows_inverse_length]
          have := (he row hrow e hee).2
          have := (he row hrow e hee).1
          omega
        rw [List.getD_eq_get _ _ hlt1]
        have hmem := List.get_mem
          (closeRows P.constVerts defaultTol).inverse _ hlt1
        rcases closeRows_inverse_valid P.constVerts defaultTol _ hmem
          with ⟨hge, hlt⟩
        refine ⟨hge, ?_⟩
        rw [hlen_chain] at hlt
        exact hlt
    have hd₁ : ∀ kv ∈ (if ((closeRows P.constVerts defaultTol).ids.map
        (fun (i : Nat) => (i : Int))).length = P.constVerts.length
        then P.vertexdata.map (fun kv =>
          (kv.1, ((closeRows P.constVerts defaultTol).ids.map
            (fun (i : Nat) => (i : Int))).map
              (fun e => kv.2.getD e.toNat default)))
        else ([] : List (String × List ℚ))),
        (kv.2 : List ℚ).length = ((idsF P.constVerts defaultTol).map
          (fun i => P.constVerts.get i)).length := by
      by_cases hll : ((closeRows P.constVerts defaultTol).ids.map
          (fun (i : Nat) => (i : Int))).length = P.constVerts.length
      · rw [if_pos hll]
        intro kv hkv
        rcases List.mem_map.mp hkv with ⟨kv0, -, rfl⟩
        show (((closeRows P.constVerts defaultTol).ids.map
          (fun (i : Nat) => (i : Int))).map
            (fun e => kv0.2.getD e.toNat default)).length = _
        simp only [List.length_map, closeRows_ids_length]
      · rw [if_neg hll]
        intro kv hkv
        simp at hkv
    obtain ⟨P₂, h2, hlen⟩ := merge_second_of_discrete defaultTol tol
      { cls := P.cls
        verts := (idsF P.constVerts defaultTol).map
          (fun i => P.constVerts.get i)
        constVerts := (idsF P.constVerts defaultTol).map
          (fun i => P.constVerts.get i)
        elems := if kindIsVertex P.cls then P.elems
          else P.elems.map (fun row => row.map (fun e =>
            (closeRows P.constVerts defaultTol).inverse.getD e.toNat (-11)))
        vertexdata := if ((closeRows P.constVerts defaultTol).ids.map
            (fun (i : Nat) => (i : Int))).length = P.constVerts.length
          then P.vertexdata.map (fun kv =>
            (kv.1, ((closeRows P.constVerts defaultTol).ids.map
              (fun (i : Nat) => (i : Int))).map
                (fun e => kv.2.getD e.toNat default)))
          else []
        gen := P.gen + 1 }
      rfl hids2 hinv2 hn' he₁ hd₁
    exact ⟨_, P₂, h1, h2, hlen⟩

/-- A concrete pool for the merge-idempotence witness. -/
def exPoolC9 : Pool :=
  { cls := .vertices
    verts := [[0], [7]]
    constVerts := [[0], [7]]
    elems := []
    vertexdata := []
    gen := 0 }

theorem mergeVertices_idempotent_count_witness :
    WfPool exPoolC9 ∧
    ∃ P₁ P₂, mergeVertices 1 exPoolC9 (some 2) = .ok P₁ ∧
      mergeVertices 1 P₁ (some 2) = .ok P₂ ∧
      P₂.verts.length = P₁.verts.length :=
  ⟨by decide, mergeVertices_idempotent_count 1 exPoolC9 (some 2) (by decide)⟩

end Gustaf
